import Mathlib

/-!
Shallow embedding of the hybrid lexical retriever in `src/server/rag.js`
(tokenizer, char n-grams, chunker, index builder, BM25/phrase/n-gram/coverage
scorer, MMR diversifier, context assembler, retrieval pipeline), together with
proofs checking the natural-language specification's claims against it.

Strings are modelled as `List Char` (`Str`); real-valued score arithmetic is
modelled over `ℝ` (JS numbers), with `Real.log` for `Math.log` and `Real.sqrt`
for `Math.sqrt`; the discrete parts of the code stay computable.
-/

set_option maxRecDepth 20000
set_option maxHeartbeats 1000000

namespace Rag

/-- Strings of the JS source, modelled as lists of characters. -/
abbrev Str := List Char

/-- Whitespace test backing the JS `\s` character class and `String.trim`. -/
def isWs (c : Char) : Bool := c.isWhitespace

/-- JS `String.prototype.trim`: drop whitespace from both ends. -/
def jsTrim (l : Str) : Str :=
  ((l.dropWhile isWs).reverse.dropWhile isWs).reverse

/-- State machine behind `collapseWs`; `inRun` records whether the scanner is
inside a whitespace run whose single replacement space was already emitted. -/
def collapseWsAux (inRun : Bool) : Str → Str
  | [] => []
  | c :: rest =>
    if isWs c then
      if inRun then collapseWsAux true rest
      else ' ' :: collapseWsAux true rest
    else c :: collapseWsAux false rest

/-- JS `replace(/\s+/g, ' ')`: collapse each maximal whitespace run to one space. -/
def collapseWs (l : Str) : Str := collapseWsAux false l

/-- JS `replace(/\r\n/g, '\n')`: rewrite each CRLF pair to a single LF. -/
def replCRLF : Str → Str
  | [] => []
  | '\r' :: '\n' :: rest => '\n' :: replCRLF rest
  | c :: rest => c :: replCRLF rest

/-- Whether `l` starts with `p` (JS `String.prototype.startsWith`). -/
def startsW : Str → Str → Bool
  | _, [] => true
  | [], _ :: _ => false
  | a :: as, b :: bs => a = b && startsW as bs

/-- JS `String.prototype.includes`: `pat` occurs as a contiguous substring of `hay`. -/
def strHasSub (hay pat : Str) : Bool :=
  match hay with
  | [] => startsW [] pat
  | _ :: rest => startsW hay pat || strHasSub rest pat

/-- Helper for `jsDedup`, carrying the set of already-seen elements. -/
def jsDedupAux {α : Type} [DecidableEq α] (seen : List α) : List α → List α
  | [] => []
  | t :: rest => if t ∈ seen then jsDedupAux seen rest else t :: jsDedupAux (t :: seen) rest

/-- JS `[...new Set(list)]`: remove duplicates keeping first occurrences. -/
def jsDedup {α : Type} [DecidableEq α] (l : List α) : List α := jsDedupAux [] l

/-- JS `Array.prototype.join('\n')`. -/
def joinNL : List Str → Str
  | [] => []
  | [x] => x
  | x :: y :: rest => x ++ '\n' :: joinNL (y :: rest)

/-- Scanner behind `maximalRuns`, carrying the current run reversed. -/
def maximalRunsAux (p : Char → Bool) (cur : Str) : Str → List Str
  | [] => if cur = [] then [] else [cur.reverse]
  | c :: rest =>
    if p c then maximalRunsAux p (c :: cur) rest
    else if cur = [] then maximalRunsAux p [] rest
    else cur.reverse :: maximalRunsAux p [] rest

/-- Maximal runs of characters satisfying `p` (the matches of a global
regex `/[class]+/g` over the string). -/
def maximalRuns (p : Char → Bool) (l : Str) : List Str := maximalRunsAux p [] l

/-- Scanner behind `splitParas`, carrying the current piece reversed.
`skipping` records that the scanner is inside a newline run of length ≥ 2
whose cut was already made (further newlines of the run are consumed);
`nlPending` records a single newline seen but not yet attributed (it starts a
separator if another newline follows, else belongs to the current piece). -/
def splitParasAux (skipping nlPending : Bool) (cur : Str) : Str → List Str
  | [] => if nlPending then [('\n' :: cur).reverse] else [cur.reverse]
  | c :: rest =>
    if skipping then
      if c = '\n' then splitParasAux true false cur rest
      else splitParasAux false false [c] rest
    else if nlPending then
      if c = '\n' then cur.reverse :: splitParasAux true false [] rest
      else splitParasAux false false (c :: '\n' :: cur) rest
    else if c = '\n' then splitParasAux false true cur rest
    else splitParasAux false false (c :: cur) rest

/-- Splitting on `/\n{2,}/`: cut at each maximal run of two or more newlines. -/
def splitParas (l : Str) : List Str := splitParasAux false false [] l

/-- Sentence-ending punctuation of `/(?<=[。！？.!?])\s*/`. -/
def isTermCh (c : Char) : Bool :=
  c = '。' || c = '！' || c = '？' || c = '.' || c = '!' || c = '?'

/-- Helper for `splitSentences`: accumulate the current sentence (reversed). -/
def sentAux (acc : Str) : Str → List Str
  | [] => [acc.reverse]
  | c :: rest =>
    if isTermCh c then (c :: acc).reverse :: sentAux [] (rest.dropWhile isWs)
    else sentAux (c :: acc) rest
termination_by l => l.length
decreasing_by
  · simp only [List.length_cons]
    exact Nat.lt_succ_of_le (List.dropWhile_suffix _).sublist.length_le
  · simp

/-- JS `paragraph.split(/(?<=[。！？.!?])\s*/)`: cut after sentence-ending
punctuation, consuming the following whitespace (empty pieces are filtered
by the caller, matching the source's `.filter(Boolean)`). -/
def splitSentences (l : Str) : List Str := sentAux [] l

/-- The `[a-z0-9_]` character class (texts are lower-cased before matching). -/
def isLatinCh (c : Char) : Bool :=
  ('a' ≤ c && c ≤ 'z') || ('0' ≤ c && c ≤ '9') || c = '_'

/-- The `[一-鿿]` CJK-ideograph character class. -/
def isCJK (c : Char) : Bool := 0x4e00 ≤ c.val && c.val ≤ 0x9fff

/-- The overlapping 2-character slices `block.slice(i, i + 2)` of a CJK block. -/
def cjkBigrams (block : Str) : List Str :=
  (List.range (block.length - 1)).map (fun i => (block.drop i).take 2)

/-- `tokenize` from `src/server/rag.js`: lower-case, collect Latin runs of
length ≥ 2, every single CJK character, each CJK run of length 2..8 whole,
and all overlapping CJK 2-grams of runs of length ≥ 2. -/
def tokenize (text : Str) : List Str :=
  let safeText := text.map Char.toLower
  let english := (maximalRuns isLatinCh safeText).filter (fun r => 2 ≤ r.length)
  let chineseChars := (safeText.filter isCJK).map (fun c => [c])
  let chineseBlocks := (maximalRuns isCJK safeText).filter (fun r => 2 ≤ r.length)
  english ++ chineseChars ++
    chineseBlocks.flatMap (fun block =>
      (if block.length ≤ 8 then [block] else []) ++ cjkBigrams block)

/-- `tokenWeight` from `src/server/rag.js` (the weights are exact rationals). -/
def tokenWeight (token : Str) : ℚ :=
  if 2 ≤ token.length ∧ token.all isCJK then 27/20
  else if token.length = 1 ∧ token.all isCJK then 4/5
  else if 6 ≤ token.length then 5/4
  else 1

/-- `buildCharNgrams` from `src/server/rag.js`: lower-case, strip all
whitespace, then take every contiguous `size`-gram (the whole string if it is
no longer than `size`). -/
def buildCharNgrams (text : Str) (size : ℕ) : Finset Str :=
  let normalized := (text.map Char.toLower).filter (fun c => !isWs c)
  if normalized = [] then ∅
  else if normalized.length ≤ size then {normalized}
  else ((List.range (normalized.length - size + 1)).map
    (fun i => (normalized.drop i).take size)).toFinset

/-- Query features (`buildQueryFeatures`'s result shape). -/
structure QueryFeatures where
  text : Str
  uniqueTokens : List Str
  ngrams : Finset Str
  phrases : List Str
deriving DecidableEq

/-- `buildQueryFeatures` from `src/server/rag.js`. -/
def buildQueryFeatures (ngramSize : ℕ) (queryText : Str) : QueryFeatures :=
  let normalized := (jsTrim (collapseWs queryText)).map Char.toLower
  let tokens := tokenize normalized
  let uniqueTokens := jsDedup tokens
  let ngrams := buildCharNgrams normalized ngramSize
  let cjkPhrases := (maximalRuns isCJK normalized).filter (fun r => 3 ≤ r.length)
  let longWords := (maximalRuns isLatinCh normalized).filter (fun r => 5 ≤ r.length)
  let phrases :=
    (if 8 ≤ normalized.length then [normalized] else []) ++ cjkPhrases ++ longWords
  { text := normalized
    uniqueTokens := uniqueTokens
    ngrams := ngrams
    phrases := (jsDedup phrases).take 10 }

/-- One entry of the JS `Map` built by `createChunk` for token frequencies. -/
abbrev FreqMap := List (Str × ℕ)

/-- `tokenFreq.set(token, (tokenFreq.get(token) || 0) + 1)` on the assoc-list
model of the JS `Map` (insertion order preserved). -/
def bumpFreq : FreqMap → Str → FreqMap
  | [], t => [(t, 1)]
  | (k, v) :: rest, t => if k = t then (k, v + 1) :: rest else (k, v) :: bumpFreq rest t

/-- Build the token-frequency map of a token list (the `for` loop of `createChunk`). -/
def buildFreq (tokens : List Str) : FreqMap := tokens.foldl bumpFreq []

/-- `map.get(t) || 0` on the assoc-list model. -/
def freqGet : FreqMap → Str → ℕ
  | [], _ => 0
  | (k, v) :: rest, t => if k = t then v else freqGet rest t

/-- A chunk record as built by `createChunk` in `src/server/rag.js` (the
`id`, `source`, `text`, `tokensCount`, `tokenFreq`, `tokenSet`, `ngramSet`,
`lowerText` fields of the JS object). -/
structure Chunk where
  id : Str
  source : Str
  text : Str
  tokensCount : ℕ
  tokenFreq : FreqMap
  tokenSet : Finset Str
  ngramSet : Finset Str
  lowerText : Str
deriving DecidableEq, Inhabited

/-- `createChunk` from `src/server/rag.js`: normalize whitespace, discard
empty or token-less spans, otherwise build the chunk record. -/
def createChunk (ngramSize : ℕ) (source text : Str) (index : ℕ) : Option Chunk :=
  let normalized := jsTrim (collapseWs text)
  if normalized = [] then none
  else
    let tokens := tokenize normalized
    if tokens = [] then none
    else
      let tokenFreq := buildFreq tokens
      some
        { id := source ++ '#' :: (toString index).toList
          source := source
          text := normalized
          tokensCount := tokens.length
          tokenFreq := tokenFreq
          tokenSet := (tokenFreq.map Prod.fst).toFinset
          ngramSet := buildCharNgrams normalized ngramSize
          lowerText := normalized.map Char.toLower }

/-- The hard fixed-width windows `sentence.slice(start, start + maxChars)`
of the chunker's last resort (the JS loop never runs for an empty sentence;
for `maxChars = 0` the JS loop would not terminate, which the configuration's
`chunkSize ≥ 200` clamp rules out, so that case is mapped to `[]`). -/
def hardSlices (maxChars : ℕ) (s : Str) : List Str :=
  if maxChars = 0 ∨ s = [] then []
  else s.take maxChars :: hardSlices maxChars (s.drop maxChars)
termination_by s.length
decreasing_by
  rename_i h
  push_neg at h
  have hpos : 0 < s.length := List.length_pos.mpr h.2
  simp only [List.length_drop]
  omega

/-- `pushCurrent` of `splitIntoChunks`: the block appended to `result`
(empty if the trimmed buffer is empty). -/
def pushList (current : Str) : List Str :=
  if jsTrim current = [] then [] else [jsTrim current]

/-- The sentence accumulation loop inside `splitIntoChunks` (the branch for a
paragraph longer than `maxChars`); returns the updated `(result, current)`. -/
def sentenceLoop (maxChars : ℕ) : List Str → Str → List Str → List Str × Str
  | [], current, result => (result, current)
  | s :: rest, current, result =>
    if (jsTrim (current ++ ' ' :: s)).length ≤ maxChars then
      sentenceLoop maxChars rest (jsTrim (current ++ ' ' :: s)) result
    else
      let result1 := result ++ pushList current
      if s.length ≤ maxChars then sentenceLoop maxChars rest s result1
      else sentenceLoop maxChars rest [] (result1 ++ hardSlices maxChars s)

/-- The paragraph accumulation loop of `splitIntoChunks`. -/
def splitLoop (maxChars : ℕ) : List Str → Str → List Str → List Str
  | [], current, result => result ++ pushList current
  | p :: rest, current, result =>
    if maxChars < p.length then
      let sentences := (splitSentences p).filter (fun s => s ≠ [])
      let rc := sentenceLoop maxChars sentences current result
      splitLoop maxChars rest rc.2 rc.1
    else if (jsTrim (current ++ '\n' :: '\n' :: p)).length ≤ maxChars then
      splitLoop maxChars rest (jsTrim (current ++ '\n' :: '\n' :: p)) result
    else
      splitLoop maxChars rest p (result ++ pushList current)

/-- `splitIntoChunks` from `src/server/rag.js`. -/
def splitIntoChunks (text : Str) (maxChars : ℕ) : List Str :=
  let paragraphs :=
    ((splitParas (replCRLF text)).map jsTrim).filter (fun p => p ≠ [])
  splitLoop maxChars paragraphs [] []

/-- The retriever's configuration (the `RAG_*` environment options after the
source's clamping; numeric score parameters are exact rationals). -/
structure RagConfig where
  enabled : Bool
  topK : ℕ
  minScore : ℚ
  chunkSize : ℕ
  contextMaxChars : ℕ
  k1 : ℚ
  b : ℚ
  candidateMultiplier : ℕ
  mmrLambda : ℚ
  ngramSize : ℕ

/-- The source's default configuration (`RAG_*` defaults in `src/server/rag.js`). -/
def defaultConfig : RagConfig :=
  { enabled := true
    topK := 4
    minScore := 4/5
    chunkSize := 800
    contextMaxChars := 4000
    k1 := 6/5
    b := 3/4
    candidateMultiplier := 8
    mmrLambda := 39/50
    ngramSize := 3 }

mutual

/-- A node of the document-source directory tree. A `file` carries the result
of the later `fs.readFile` (`readOk = false` models a rejected read, which the
source swallows into empty content); a `dir` carries the result of
`fs.readdir` (`listOk = false` models a throwing `readdir`). -/
inductive FsEntry where
  | file (name : Str) (readOk : Bool) (content : Str)
  | dir (name : Str) (listOk : Bool) (entries : FsList)

/-- A directory listing (a list of entries, as its own inductive so that the
walk recursion stays structural). -/
inductive FsList where
  | nil
  | cons (e : FsEntry) (rest : FsList)

end

/-- JS `path.extname` on a bare entry name: the suffix from the last dot,
and the empty string when there is no dot or the only dot starts the name
(a dotfile such as `.md` has no extension). -/
def extnameOf (name : Str) : Str :=
  let r := name.reverse.takeWhile (fun c => c ≠ '.')
  if r.length = name.length then []
  else if r.length + 1 = name.length then []
  else '.' :: r.reverse

/-- `SUPPORTED_EXTENSIONS` membership of `path.extname(name).toLowerCase()`. -/
def supportedExt (name : Str) : Bool :=
  let ext := (extnameOf name).map Char.toLower
  ext = ".txt".toList || ext = ".md".toList || ext = ".markdown".toList

mutual

/-- The per-entry step of `walkFiles` from `src/server/rag.js`: a supported
file contributes its path and pending read result; a directory is walked
recursively, a failing `readdir` propagating as an exception. -/
def walkEntry (pre : Str) : FsEntry → Except Str (List (Str × Bool × Str))
  | .file name rOk content =>
    .ok (if supportedExt name then [(pre ++ '/' :: name, rOk, content)] else [])
  | .dir name lOk entries =>
    if lOk then walkList (pre ++ '/' :: name) entries
    else .error ("readdir failed: ".toList ++ pre ++ '/' :: name)

/-- `walkFiles` over a directory listing: enumerate supported files in entry
order, propagating a failing `readdir` as an exception (`Except.error`). -/
def walkList (pre : Str) : FsList → Except Str (List (Str × Bool × Str))
  | .nil => .ok []
  | .cons e rest => do
    let here ← walkEntry pre e
    let tail ← walkList pre rest
    .ok (here ++ tail)

end

mutual

/-- Whether every directory listing below this entry succeeds. -/
def entryOk : FsEntry → Bool
  | .file _ _ _ => true
  | .dir _ lOk entries => lOk && entryOkList entries

/-- Whether every directory listing in the entry list succeeds. -/
def entryOkList : FsList → Bool
  | .nil => true
  | .cons e rest => entryOk e && entryOkList rest

end

/-- The cache snapshot (`cache` object of `src/server/rag.js`): chunk list,
file count, last error, document-frequency map and average chunk token count
(`loadedAt` carries no retrieval-relevant information and is omitted). -/
structure Snapshot where
  chunks : List Chunk
  files : ℕ
  lastError : Option Str
  dfMap : Str → ℕ
  avgTokens : ℚ

/-- The document frequency of `buildIndexStats`: the number of chunks whose
`tokenSet` contains the token. -/
def dfCount (chunks : List Chunk) (t : Str) : ℕ :=
  (chunks.filter (fun c => t ∈ c.tokenSet)).length

/-- The average chunk token count of `buildIndexStats`. -/
def avgOf (chunks : List Chunk) : ℚ :=
  if chunks.length = 0 then 0
  else ((chunks.map (fun c => (c.tokensCount : ℚ))).sum) / chunks.length

/-- The empty snapshot the source installs when disabled or failing. -/
def emptySnapshot : Snapshot :=
  { chunks := [], files := 0, lastError := none, dfMap := fun _ => 0, avgTokens := 0 }

/-- The chunks one walked file contributes during `rebuildCache`: its content
(a rejected read is swallowed to empty content by `.catch(() => '')`) is
chunked and each non-degenerate part becomes a chunk. -/
def fileChunks (cfg : RagConfig) (p : Str) (rOk : Bool) (content : Str) : List Chunk :=
  ((splitIntoChunks (if rOk then content else []) cfg.chunkSize).enum).filterMap
    (fun pr => createChunk cfg.ngramSize p pr.2 pr.1)

/-- `rebuildCache` from `src/server/rag.js` over the modelled document source:
`root = none` models a failing `fs.access` on the knowledge root, and
`root = some (listOk, entries)` an existing root whose `readdir` succeeds or
throws. A thrown exception anywhere in the walk is the `Except.error` case. -/
def rebuildCache (cfg : RagConfig) (root : Option (Bool × FsList)) :
    Except Str Snapshot :=
  if cfg.enabled = false then .ok emptySnapshot
  else
    match root with
    | none =>
      .ok { emptySnapshot with lastError := some "knowledge directory not found".toList }
    | some (lOk, entries) =>
      if lOk then do
        let files ← walkList "knowledge".toList entries
        let chunks := files.flatMap (fun f => fileChunks cfg f.1 f.2.1 f.2.2)
        .ok { chunks := chunks
              files := files.length
              lastError := none
              dfMap := fun t => dfCount chunks t
              avgTokens := avgOf chunks }
      else .error ("readdir failed: knowledge".toList)

/-- The chunk list of the snapshot `rebuildCache` produces (empty when the
rebuild throws), used to state invariants over produced snapshots. -/
def chunksOfRebuild (cfg : RagConfig) (root : Option (Bool × FsList)) : List Chunk :=
  match rebuildCache cfg root with
  | .ok snap => snap.chunks
  | .error _ => []

/-- `clamp01` from `src/server/rag.js` (`Math.max(0, Math.min(1, value))`). -/
noncomputable def clamp01 (value : ℝ) : ℝ := max 0 (min 1 value)

/-- `intersectCount` from `src/server/rag.js`: the number of elements the two
sets share (the source iterates the smaller set for speed; the value is the
intersection cardinality). -/
def intersectCount (setA setB : Finset Str) : ℕ := (setA ∩ setB).card

/-- The per-token BM25 term of `bm25Score`: `idf * tf * (k1+1) * weight`
divided by `max(tf + k1 * (1 - b + b * chunkLen / avgLen), 1e-9)`, and `0`
when the token is absent from the chunk (`tf = 0`). `totalDocs` and `avgLen`
are the already-clamped `Math.max(1, ...)` values. -/
noncomputable def bm25TokenScore (cfg : RagConfig) (totalDocs : ℕ) (avgLen : ℚ)
    (df tf tokensCount : ℕ) (weight : ℚ) : ℝ :=
  if tf = 0 then 0
  else
    let idf : ℝ := Real.log (1 + ((totalDocs : ℝ) - df + 1/2) / ((df : ℝ) + 1/2))
    let numerator : ℝ := (tf : ℝ) * ((cfg.k1 : ℝ) + 1)
    let denominator : ℝ :=
      (tf : ℝ) + (cfg.k1 : ℝ) * (1 - (cfg.b : ℝ) + (cfg.b : ℝ) * (tokensCount : ℝ) / (avgLen : ℝ))
    idf * numerator * (weight : ℝ) / max denominator (1/1000000000)

/-- `bm25Score` from `src/server/rag.js`: sum of the per-token BM25 terms over
the query's unique tokens. -/
noncomputable def bm25Score (cfg : RagConfig) (chunk : Chunk) (qf : QueryFeatures)
    (state : Snapshot) : ℝ :=
  let totalDocs := max 1 state.chunks.length
  let avgLen : ℚ := max 1 state.avgTokens
  (qf.uniqueTokens.map (fun t =>
    bm25TokenScore cfg totalDocs avgLen (state.dfMap t) (freqGet chunk.tokenFreq t)
      chunk.tokensCount (tokenWeight t))).sum

/-- `phraseScore` from `src/server/rag.js`: +1.5 per contained phrase of
length ≥ 8, +0.7 per contained phrase of length 3..7, and +2 when the whole
normalized query (length ≥ 8) occurs in the chunk. -/
noncomputable def phraseScore (chunk : Chunk) (qf : QueryFeatures) : ℝ :=
  ((qf.phrases.filter
      (fun p => 3 ≤ p.length ∧ strHasSub chunk.lowerText p)).map
    (fun p => if 8 ≤ p.length then (3/2 : ℝ) else 7/10)).sum +
  (if 8 ≤ qf.text.length ∧ strHasSub chunk.lowerText qf.text then 2 else 0)

/-- `ngramSimilarity` from `src/server/rag.js`: overlap normalized by
`Math.sqrt(|querySet| * |chunkSet|)`, `0` when either set or the overlap is empty. -/
noncomputable def ngramSimilarity (chunk : Chunk) (qf : QueryFeatures) : ℝ :=
  if qf.ngrams.card = 0 ∨ chunk.ngramSet.card = 0 then 0
  else
    let overlap := intersectCount qf.ngrams chunk.ngramSet
    if overlap = 0 then 0
    else (overlap : ℝ) / Real.sqrt ((qf.ngrams.card : ℝ) * (chunk.ngramSet.card : ℝ))

/-- `queryCoverage` from `src/server/rag.js`: the fraction of the query's
unique tokens present in the chunk's token set. -/
noncomputable def queryCoverage (chunk : Chunk) (qf : QueryFeatures) : ℝ :=
  if qf.uniqueTokens = [] then 0
  else ((qf.uniqueTokens.countP (fun t => t ∈ chunk.tokenSet) : ℕ) : ℝ) /
    (qf.uniqueTokens.length : ℝ)

/-- The combined relevance score of `scoreChunk`:
`bm25 + phrase + ngram * 2.2 + coverage * 1.2`. -/
noncomputable def scoreChunk (cfg : RagConfig) (chunk : Chunk) (qf : QueryFeatures)
    (state : Snapshot) : ℝ :=
  bm25Score cfg chunk qf state + phraseScore chunk qf +
    ngramSimilarity chunk qf * (11/5) + queryCoverage chunk qf * (6/5)

/-- The rounded metric record `scoreChunk` attaches (`Number(x.toFixed(4))`,
modelled as rounding to the nearest 1/10000). -/
noncomputable def round4 (x : ℝ) : ℝ := (⌊x * 10000 + 1/2⌋ : ℝ) / 10000

/-- The four reported metrics of a scored candidate. -/
structure Metrics where
  bm25 : ℝ
  phrase : ℝ
  ngram : ℝ
  coverage : ℝ

/-- A scored candidate (`{ ...chunk, score, metrics }` in `retrieveKnowledge`). -/
structure Scored where
  chunk : Chunk
  score : ℝ
  metrics : Metrics

/-- Build the scored candidate of one chunk (the `.map` body of
`retrieveKnowledge` together with `scoreChunk`'s metric rounding). -/
noncomputable def mkScored (cfg : RagConfig) (chunk : Chunk) (qf : QueryFeatures)
    (state : Snapshot) : Scored :=
  { chunk := chunk
    score := scoreChunk cfg chunk qf state
    metrics :=
      { bm25 := round4 (bm25Score cfg chunk qf state)
        phrase := round4 (phraseScore chunk qf)
        ngram := round4 (ngramSimilarity chunk qf)
        coverage := round4 (queryCoverage chunk qf) } }

/-- `chunkSimilarity` from `src/server/rag.js`: token overlap and n-gram
overlap are each normalized by the LARGER set's size, blended 0.55/0.45 and
clamped to [0,1]. -/
noncomputable def chunkSimilarity (left right : Chunk) : ℝ :=
  let tokenOverlap : ℝ :=
    if left.tokenSet.card ≠ 0 ∧ right.tokenSet.card ≠ 0 then
      (intersectCount left.tokenSet right.tokenSet : ℝ) /
        (max left.tokenSet.card right.tokenSet.card : ℝ)
    else 0
  let ngramOverlap : ℝ :=
    if left.ngramSet.card ≠ 0 ∧ right.ngramSet.card ≠ 0 then
      (intersectCount left.ngramSet right.ngramSet : ℝ) /
        (max left.ngramSet.card right.ngramSet.card : ℝ)
    else 0
  clamp01 (tokenOverlap * (11/20) + ngramOverlap * (9/20))

/-- The redundancy term of `applyMMR`'s inner loop: fold of
`Math.max(redundancy, chunkSimilarity(candidate, chosen))` starting at 0. -/
noncomputable def redundancy (selected : List Scored) (candidate : Scored) : ℝ :=
  selected.foldl (fun r chosen => max r (chunkSimilarity candidate.chunk chosen.chunk)) 0

/-- The selection value `mmrScore` computed for a remaining candidate inside
`applyMMR`: `λ * (score / maxRelevance) - (1 - λ) * redundancy`. -/
noncomputable def mmrValue (lam maxRel : ℝ) (selected : List Scored)
    (candidate : Scored) : ℝ :=
  lam * (candidate.score / maxRel) - (1 - lam) * redundancy selected candidate

/-- The index/value scan of `applyMMR`'s candidate loop: starting from the
running best `(bi, bv)` at absolute position `i`, a later candidate replaces
the best only when its value is strictly greater. -/
noncomputable def scanBest (f : Scored → ℝ) : List Scored → ℕ → ℕ × ℝ → ℕ × ℝ
  | [], _, best => best
  | y :: ys, i, (bi, bv) =>
    if bv < f y then scanBest f ys (i + 1) (i, f y) else scanBest f ys (i + 1) (bi, bv)

/-- The `bestIndex` selected by one pass of `applyMMR`'s candidate loop
(`bestScore` starts at `-Infinity`, so the first candidate always becomes the
initial best). -/
noncomputable def bestIndex (f : Scored → ℝ) : List Scored → ℕ
  | [] => 0
  | x :: xs => (scanBest f xs 1 (0, f x)).1

/-- The greedy `while` loop of `applyMMR`; the fuel counts the remaining
slots (`topK - selected.length`), and each round moves the best remaining
candidate into `selected` (`splice` removes it from `remaining`). -/
noncomputable def mmrLoop (lam maxRel : ℝ) : ℕ → List Scored → List Scored → List Scored
  | 0, selected, _ => selected
  | _ + 1, selected, [] => selected
  | k + 1, selected, r :: rs =>
    let remaining := r :: rs
    let i := bestIndex (mmrValue lam maxRel selected) remaining
    mmrLoop lam maxRel k (selected ++ [remaining.getD i r]) (remaining.eraseIdx i)

/-- Stable insertion of a candidate into a list sorted by descending score
(the JS `sort((a, b) => b.score - a.score)`, which is stable). -/
noncomputable def insertDesc (x : Scored) : List Scored → List Scored
  | [] => [x]
  | y :: ys => if x.score < y.score then y :: insertDesc x ys else x :: y :: ys

/-- Stable sort by descending score. -/
noncomputable def sortDesc (l : List Scored) : List Scored := l.foldr insertDesc []

/-- `applyMMR` from `src/server/rag.js`. -/
noncomputable def applyMMR (lam : ℝ) (topK : ℕ) (candidates : List Scored) : List Scored :=
  if candidates.length ≤ topK then candidates
  else
    let maxRelevance : ℝ := max ((candidates.map (fun item => item.score)).foldr max 0) 1
    sortDesc (mmrLoop lam maxRelevance topK [] candidates)

/-- The first fixed instruction line of `buildContextMessage`. -/
def ctxLine1 : Str := "You have access to internal knowledge snippets below.".toList

/-- The second fixed instruction line of `buildContextMessage`. -/
def ctxLine2 : Str :=
  "Use them when relevant. If used, cite source path in plain text like [knowledge/...].".toList

/-- The fixed instruction preamble preceding the first rendered block in the
assembled context (`line1 ++ "\n" ++ line2 ++ "\n\n"`). -/
def contextPreamble : Str := ctxLine1 ++ '\n' :: ctxLine2 ++ '\n' :: '\n' :: []

/-- The numbered block header `[i] Source: <path>\n` of `buildContextMessage`. -/
def ctxHeader (i : ℕ) (source : Str) : Str :=
  '[' :: (toString i).toList ++ "] Source: ".toList ++ source ++ '\n' :: []

/-- The block accumulation loop of `buildContextMessage`: stop (discarding
the rest) as soon as a block would push the running total past `maxChars`. -/
def ctxLoop (maxChars : ℕ) : List (Str × Str) → ℕ → ℕ → List Str
  | [], _, _ => []
  | (source, text) :: rest, i, consumed =>
    let block := ctxHeader i source ++ text ++ '\n' :: []
    if maxChars < consumed + block.length then []
    else block :: ctxLoop maxChars rest (i + 1) (consumed + block.length)

/-- `buildContextMessage` from `src/server/rag.js` (over the source/text
pairs of the ranked matches). -/
def buildContextMessage (maxChars : ℕ) (items : List (Str × Str)) : Option Str :=
  if items = [] then none
  else
    let sections := ctxLoop maxChars items 1 0
    if sections = [] then none
    else some (joinNL ([ctxLine1, ctxLine2, []] ++ sections))

/-- One reported match of a retrieval result. -/
structure MatchItem where
  source : Str
  text : Str
  score : ℝ
  metrics : Metrics

/-- The retrieval result (`{ matches, citations, contextMessage }`). -/
structure RetrievalResult where
  matches' : List MatchItem
  citations : List Str
  contextMessage : Option Str

/-- The empty result returned on the guard paths of `retrieveKnowledge`. -/
def emptyResult : RetrievalResult :=
  { matches' := [], citations := [], contextMessage := none }

/-- `retrieveKnowledge` from `src/server/rag.js`, over the current snapshot
(the TTL-based `ensureCache` is the identity on an already-fresh snapshot). -/
noncomputable def retrieveKnowledge (cfg : RagConfig) (state : Snapshot)
    (query : Str) : RetrievalResult :=
  let safeQuery := jsTrim query
  if cfg.enabled = false ∨ safeQuery = [] then emptyResult
  else if state.chunks = [] then emptyResult
  else
    let qf := buildQueryFeatures cfg.ngramSize safeQuery
    if qf.uniqueTokens = [] then emptyResult
    else
      let candidateLimit :=
        min state.chunks.length (max cfg.topK (cfg.topK * cfg.candidateMultiplier))
      let scored :=
        ((sortDesc ((state.chunks.map (fun c => mkScored cfg c qf state)).filter
          (fun item => (cfg.minScore : ℝ) ≤ item.score))).take candidateLimit)
      let ranked := applyMMR (cfg.mmrLambda : ℝ) cfg.topK scored
      { matches' := ranked.map (fun item =>
          { source := item.chunk.source
            text := item.chunk.text
            score := round4 item.score
            metrics := item.metrics })
        citations := jsDedup (ranked.map (fun item => item.chunk.source))
        contextMessage :=
          buildContextMessage cfg.contextMaxChars
            (ranked.map (fun item => (item.chunk.source, item.chunk.text))) }

/-- Similarity between two chunks as the specification's §4.5 words state it
(for comparison against the source's `chunkSimilarity`): a weighted blend of
token-set Jaccard (weight 0.55) and n-gram-set Jaccard (weight 0.45), clamped
to [0,1]. -/
noncomputable def specChunkSimilarity (left right : Chunk) : ℝ :=
  clamp01
    ((intersectCount left.tokenSet right.tokenSet : ℝ) /
        ((left.tokenSet ∪ right.tokenSet).card : ℝ) * (11/20) +
      (intersectCount left.ngramSet right.ngramSet : ℝ) /
        ((left.ngramSet ∪ right.ngramSet).card : ℝ) * (9/20))

/-- The snapshot `rebuildCache` produces (the empty snapshot when the rebuild
throws), for building concrete retrieval states. -/
def snapOfRebuild (cfg : RagConfig) (root : Option (Bool × FsList)) : Snapshot :=
  (rebuildCache cfg root).toOption.getD emptySnapshot

/-- A one-file document source whose only chunk is the text `xabcdefghx`. -/
def exRootC1 : Option (Bool × FsList) :=
  some (true, .cons (.file "a.md".toList true "xabcdefghx".toList) .nil)

/-- The snapshot built from `exRootC1`. -/
def exSnapC1 : Snapshot := snapOfRebuild defaultConfig exRootC1

/-- A one-file document source whose only chunk is the text `hello world`. -/
def exRootHello : Option (Bool × FsList) :=
  some (true, .cons (.file "a.md".toList true "hello world".toList) .nil)

/-- The snapshot built from `exRootHello`. -/
def exSnapHello : Snapshot := snapOfRebuild defaultConfig exRootHello

/-- A bare chunk record with unit token frequencies, for diversifier examples. -/
def plainChunk (tokens ngrams : List Str) : Chunk :=
  { id := []
    source := []
    text := []
    tokensCount := tokens.length
    tokenFreq := tokens.map (fun t => (t, 1))
    tokenSet := tokens.toFinset
    ngramSet := ngrams.toFinset
    lowerText := [] }

/-- A scored candidate over `plainChunk`, for diversifier examples. -/
noncomputable def mkCand (score : ℝ) (tokens ngrams : List Str) : Scored :=
  { chunk := plainChunk tokens ngrams
    score := score
    metrics := { bm25 := 0, phrase := 0, ngram := 0, coverage := 0 } }

/-- Candidate with token set `{a, b}` and n-gram set `{xx}`, score 2. -/
noncomputable def candA : Scored := mkCand 2 ["a".toList, "b".toList] ["xx".toList]

/-- Candidate with token set `{b, c}` and n-gram set `{xx}`, score 1. -/
noncomputable def candB : Scored := mkCand 1 ["b".toList, "c".toList] ["xx".toList]

/-- Relevance-sorted three-candidate pool for diversifier examples. -/
noncomputable def exPool : List Scored :=
  [mkCand 3 ["p".toList] [], mkCand 2 ["q".toList] [], mkCand 1 ["r".toList] []]

/-- A chunk holding token `ab` once among five tokens, for BM25 examples. -/
def c3chunkLo : Chunk :=
  { id := [], source := [], text := [], tokensCount := 5
    tokenFreq := [("ab".toList, 1)], tokenSet := {"ab".toList}
    ngramSet := ∅, lowerText := [] }

/-- The same chunk with term frequency 2 for token `ab`. -/
def c3chunkHi : Chunk :=
  { id := [], source := [], text := [], tokensCount := 5
    tokenFreq := [("ab".toList, 2)], tokenSet := {"ab".toList}
    ngramSet := ∅, lowerText := [] }

/-- A single-token query feature record for BM25 examples. -/
def c3qf : QueryFeatures :=
  { text := [], uniqueTokens := ["ab".toList], ngrams := ∅, phrases := [] }

/-- A small snapshot for BM25 examples (zero document frequencies). -/
def c3snap : Snapshot :=
  { chunks := [c3chunkLo], files := 1, lastError := none
    dfMap := fun _ => 0, avgTokens := 3 }

/-- Twenty source/text pairs whose rendered blocks are 40 characters each, so
that the accumulated block total is exactly 800 characters. -/
def exCtxItems : List (Str × Str) :=
  (List.range 20).map
    (fun i => ("a.md".toList, List.replicate (if i < 9 then 22 else 21) 'x'))

/-- The chunk the `hello world` document source produces. -/
def helloChunk : Chunk := (chunksOfRebuild defaultConfig exRootHello).headI

/-- The chunk the `xabcdefghx` document source produces. -/
def exChunkC1 : Chunk := (chunksOfRebuild defaultConfig exRootC1).headI

/-- Whether the string contains two adjacent newline characters (a blank-line
separator as `splitParas` sees it). -/
def hasNN : Str → Bool
  | [] => false
  | [_] => false
  | c1 :: c2 :: rest => (c1 = '\n' && c2 = '\n') || hasNN (c2 :: rest)

/-- Join paragraphs with the chunker's blank-line separator, the normal form
whose re-split is the identity. -/
def joinParas : List Str → Str
  | [] => []
  | [p] => p
  | p :: q :: rest => p ++ '\n' :: '\n' :: joinParas (q :: rest)

/-! ## Lemmas and claim theorems -/

theorem bumpFreq_ne_nil (m : FreqMap) (t : Str) : bumpFreq m t ≠ [] := by
  cases m with
  | nil => simp [bumpFreq]
  | cons kv rest =>
    obtain ⟨k, v⟩ := kv
    simp only [bumpFreq]
    split <;> simp

theorem foldl_bumpFreq_ne_nil (l : List Str) :
    ∀ m : FreqMap, m ≠ [] → l.foldl bumpFreq m ≠ [] := by
  induction l with
  | nil => intro m hm; simpa using hm
  | cons t ts ih =>
    intro m _
    simpa [List.foldl_cons] using ih (bumpFreq m t) (bumpFreq_ne_nil m t)

theorem buildFreq_ne_nil (l : List Str) (h : l ≠ []) : buildFreq l ≠ [] := by
  cases l with
  | nil => exact absurd rfl h
  | cons t ts =>
    simpa [buildFreq, List.foldl_cons] using
      foldl_bumpFreq_ne_nil ts (bumpFreq [] t) (bumpFreq_ne_nil [] t)

theorem createChunk_some {n : ℕ} {s txt : Str} {i : ℕ} {c : Chunk}
    (h : createChunk n s txt i = some c) :
    1 ≤ c.tokensCount ∧ c.tokenSet.Nonempty := by
  simp only [createChunk] at h
  split at h
  · exact absurd h (by simp)
  · split at h
    · exact absurd h (by simp)
    · rename_i hnorm htok
      obtain rfl := Option.some.inj h
      refine ⟨?_, ?_⟩
      · simpa [Nat.one_le_iff_ne_zero, List.length_eq_zero] using htok
      · obtain ⟨p, hp⟩ := List.exists_mem_of_ne_nil _ (buildFreq_ne_nil _ htok)
        exact ⟨p.1, by simp only [List.mem_toFinset]; exact List.mem_map_of_mem _ hp⟩

/-- C9: every chunk in any snapshot produced by `rebuildCache` has at least
one token and a non-empty token set; empty or token-less spans are discarded
by `createChunk`. -/
theorem claim9_theorem (cfg : RagConfig) (root : Option (Bool × FsList)) (c : Chunk)
    (h : c ∈ chunksOfRebuild cfg root) :
    1 ≤ c.tokensCount ∧ c.tokenSet.Nonempty := by
  unfold chunksOfRebuild at h
  rcases hr : rebuildCache cfg root with e | snap
  · rw [hr] at h; exact absurd h (by simp)
  · rw [hr] at h
    unfold rebuildCache at hr
    split at hr
    · obtain rfl := Except.ok.inj hr
      exact absurd h (by simp [emptySnapshot])
    · split at hr
      · obtain rfl := Except.ok.inj hr
        exact absurd h (by simp [emptySnapshot])
      · rename_i lOk entries
        split at hr
        · rcases hw : walkList "knowledge".toList entries with e' | files
          · rw [hw] at hr
            exact absurd hr (by simp [Bind.bind, Except.bind])
          · rw [hw] at hr
            simp only [Bind.bind, Except.bind] at hr
            obtain rfl := Except.ok.inj hr
            simp only [List.mem_flatMap] at h
            obtain ⟨f, _, hc⟩ := h
            simp only [fileChunks, List.mem_filterMap] at hc
            obtain ⟨pr, _, hcc⟩ := hc
            exact createChunk_some hcc
        · exact absurd hr (by simp)

/-- Witness for C9 at the concrete `hello world` document source. -/
theorem claim9_witness : 1 ≤ helloChunk.tokensCount ∧ helloChunk.tokenSet.Nonempty :=
  claim9_theorem defaultConfig exRootHello helloChunk (by decide)

mutual

theorem walkEntry_ok (pre : Str) (e : FsEntry) (h : entryOk e = true) :
    (walkEntry pre e).isOk = true := by
  cases e with
  | file name rOk content =>
    simp only [walkEntry]
    split <;> rfl
  | dir name lOk entries =>
    simp only [entryOk, Bool.and_eq_true] at h
    simp only [walkEntry, h.1, if_true]
    exact walkList_ok (pre ++ '/' :: name) entries h.2

theorem walkList_ok (pre : Str) (l : FsList) (h : entryOkList l = true) :
    (walkList pre l).isOk = true := by
  cases l with
  | nil => rfl
  | cons e rest =>
    simp only [entryOkList, Bool.and_eq_true] at h
    have h1 := walkEntry_ok pre e h.1
    have h2 := walkList_ok pre rest h.2
    rcases he : walkEntry pre e with e' | a
    · rw [he] at h1; exact absurd h1 (by simp [Except.isOk, Except.toBool])
    · rcases hr : walkList pre rest with e' | b
      · rw [hr] at h2; exact absurd h2 (by simp [Except.isOk, Except.toBool])
      · simp only [walkList, he, hr]
        rfl

end

/-- C7 (amended): a missing knowledge root is absorbed into an empty snapshot
recording `lastError`; when every directory listing succeeds the rebuild
returns a snapshot rather than throwing; and a file whose read fails
contributes zero chunks. (A failing `readdir` during the walk is NOT
absorbed — see the counterexample.) -/
theorem claim7_amended (cfg : RagConfig) :
    (cfg.enabled = true →
      rebuildCache cfg none =
        .ok { emptySnapshot with lastError := some "knowledge directory not found".toList }) ∧
    (∀ entries : FsList, cfg.enabled = true → entryOkList entries = true →
      (rebuildCache cfg (some (true, entries))).isOk = true) ∧
    (∀ p content : Str, fileChunks cfg p false content = []) := by
  refine ⟨?_, ?_, ?_⟩
  · intro h
    simp [rebuildCache, h]
  · intro entries hen hok
    have hw := walkList_ok "knowledge".toList entries hok
    rcases he : walkList "knowledge".toList entries with e | files
    · rw [he] at hw; exact absurd hw (by simp [Except.isOk, Except.toBool])
    · simp only [rebuildCache, hen, Bool.true_eq_false, if_false, if_true, he]
      rfl
  · intro p content
    rfl

/-- Witness for C7 (amended) at a concrete configuration and source. -/
theorem claim7_witness :
    rebuildCache defaultConfig none =
      .ok { emptySnapshot with lastError := some "knowledge directory not found".toList } ∧
    (rebuildCache defaultConfig
      (some (true, FsList.cons (.file "a.md".toList true "hi there".toList) .nil))).isOk = true ∧
    fileChunks defaultConfig "p".toList false "secret".toList = [] :=
  ⟨(claim7_amended defaultConfig).1 rfl,
   (claim7_amended defaultConfig).2.1 _ rfl (by decide),
   (claim7_amended defaultConfig).2.2 _ _⟩

/-- Counterexample for C7 as stated: when the knowledge root exists but its
`readdir` throws (e.g. the configured directory is a regular file, so
`fs.access` succeeds and `fs.readdir` rejects with `ENOTDIR`), the rebuild
propagates the exception instead of installing an empty snapshot. -/
theorem claim7_counterexample :
    (rebuildCache defaultConfig (some (false, FsList.nil))).isOk = false := by
  decide

theorem jsTrim_eq_nil_of_ws {q : Str} (h : ∀ c ∈ q, isWs c = true) : jsTrim q = [] := by
  have h1 : q.dropWhile isWs = [] := List.dropWhile_eq_nil_iff.mpr h
  simp [jsTrim, h1]

/-- C8: a disabled retriever, an all-whitespace (or empty) query, or an empty
snapshot makes `retrieveKnowledge` return the empty result — empty matches,
empty citations, and no context message. -/
theorem claim8_theorem (cfg : RagConfig) (st : Snapshot) (q : Str)
    (h : cfg.enabled = false ∨ (∀ c ∈ q, isWs c = true) ∨ st.chunks = []) :
    retrieveKnowledge cfg st q = emptyResult := by
  unfold retrieveKnowledge
  rcases h with h | h | h
  · simp [h]
  · simp [jsTrim_eq_nil_of_ws h]
  · simp only [h]
    simp

/-- Witness for C8: a pure-whitespace query against a non-empty snapshot. -/
theorem claim8_witness :
    retrieveKnowledge defaultConfig exSnapHello "  ".toList = emptyResult :=
  claim8_theorem defaultConfig exSnapHello "  ".toList (Or.inr (Or.inl (by decide)))

theorem ctxLoop_sum (maxChars : ℕ) :
    ∀ (items : List (Str × Str)) (i consumed : ℕ), consumed ≤ maxChars →
      consumed + ((ctxLoop maxChars items i consumed).map List.length).sum ≤ maxChars := by
  intro items
  induction items with
  | nil => intro i consumed h; simpa [ctxLoop] using h
  | cons it rest ih =>
    intro i consumed h
    obtain ⟨s, t⟩ := it
    simp only [ctxLoop]
    split_ifs with hlt
    · simpa using h
    · push_neg at hlt
      have := ih (i + 1) (consumed + (ctxHeader i s ++ t ++ '\n' :: []).length) hlt
      simp only [List.map_cons, List.sum_cons]
      omega

theorem ctxLoop_len (maxChars : ℕ) :
    ∀ (items : List (Str × Str)) (i consumed : ℕ),
      (ctxLoop maxChars items i consumed).length ≤ items.length := by
  intro items
  induction items with
  | nil => intro i consumed; simp [ctxLoop]
  | cons it rest ih =>
    intro i consumed
    obtain ⟨s, t⟩ := it
    simp only [ctxLoop]
    split_ifs
    · simp
    · simpa using ih (i + 1) _

theorem joinNL_length : ∀ l : List Str, l ≠ [] →
    (joinNL l).length + 1 = (l.map List.length).sum + l.length := by
  intro l
  induction l with
  | nil => intro h; exact absurd rfl h
  | cons x rest ih =>
    intro _
    cases rest with
    | nil => simp [joinNL]
    | cons y t =>
      have := ih (by simp)
      simp only [joinNL, List.length_append, List.length_cons, List.map_cons,
        List.sum_cons] at *
      omega

/-- C5 (amended): the assembled context never exceeds `maxChars` plus the
fixed instruction preamble plus one joining newline per rendered block (at
most one per match); blocks are accumulated only while the running total
stays within `maxChars` and the rest are discarded (the discard behaviour is
the `ctxLoop` break, bounded by `ctxLoop_sum`). -/
theorem claim5_amended (maxChars : ℕ) (items : List (Str × Str)) :
    ((buildContextMessage maxChars items).getD []).length ≤
      maxChars + contextPreamble.length + items.length := by
  unfold buildContextMessage
  split_ifs with h1
  · simp
  · by_cases hs : ctxLoop maxChars items 1 0 = []
    · simp [hs]
    · rw [if_neg hs, Option.getD_some]
      have hsum : ((ctxLoop maxChars items 1 0).map List.length).sum ≤ maxChars := by
        simpa using ctxLoop_sum maxChars items 1 0 (Nat.zero_le _)
      have hlen : (ctxLoop maxChars items 1 0).length ≤ items.length :=
        ctxLoop_len maxChars items 1 0
      have hne : ([ctxLine1, ctxLine2, []] ++ ctxLoop maxChars items 1 0) ≠ [] := by simp
      have hj := joinNL_length _ hne
      have hp : contextPreamble.length = ctxLine1.length + ctxLine2.length + 3 := by
        simp only [contextPreamble, List.length_append, List.length_cons, List.length_nil]
        omega
      simp only [List.map_append, List.sum_append, List.map_cons, List.sum_cons,
        List.length_append, List.length_cons, List.length_nil, List.map_nil,
        List.sum_nil, List.cons_append, List.nil_append] at hj ⊢
      omega

/-- Counterexample for C5 as stated: twenty 40-character blocks fit the
800-character budget exactly, but the join inserts an extra newline between
consecutive blocks, so the assembled string exceeds `maxChars` plus the fixed
instruction preamble (by 19 characters here). -/
theorem claim5_counterexample :
    (buildContextMessage 800 exCtxItems).isSome = true ∧
      800 + contextPreamble.length <
        ((buildContextMessage 800 exCtxItems).getD []).length := by
  decide

theorem tokenWeight_nonneg (t : Str) : 0 ≤ tokenWeight t := by
  unfold tokenWeight
  split_ifs <;> norm_num

theorem intersectCount_le_sqrt (A B : Finset Str) :
    (intersectCount A B : ℝ) ≤ Real.sqrt ((A.card : ℝ) * (B.card : ℝ)) := by
  have h1 : (A ∩ B).card ≤ A.card := Finset.card_le_card Finset.inter_subset_left
  have h2 : (A ∩ B).card ≤ B.card := Finset.card_le_card Finset.inter_subset_right
  have hx : (0 : ℝ) ≤ (intersectCount A B : ℝ) := Nat.cast_nonneg _
  have hy : (0 : ℝ) ≤ (A.card : ℝ) * (B.card : ℝ) :=
    mul_nonneg (Nat.cast_nonneg _) (Nat.cast_nonneg _)
  rw [Real.le_sqrt hx hy]
  have h1' : (intersectCount A B : ℝ) ≤ (A.card : ℝ) := by exact_mod_cast h1
  have h2' : (intersectCount A B : ℝ) ≤ (B.card : ℝ) := by exact_mod_cast h2
  nlinarith [hx]

theorem ngramSimilarity_nonneg (chunk : Chunk) (qf : QueryFeatures) :
    0 ≤ ngramSimilarity chunk qf := by
  unfold ngramSimilarity
  dsimp only
  split_ifs
  · exact le_refl 0
  · exact le_refl 0
  · exact div_nonneg (Nat.cast_nonneg _) (Real.sqrt_nonneg _)

theorem ngramSimilarity_le_one (chunk : Chunk) (qf : QueryFeatures) :
    ngramSimilarity chunk qf ≤ 1 := by
  unfold ngramSimilarity
  dsimp only
  split_ifs with hc hov
  · norm_num
  · norm_num
  · push_neg at hc
    have hq : 1 ≤ qf.ngrams.card := Nat.one_le_iff_ne_zero.mpr hc.1
    have hcc : 1 ≤ chunk.ngramSet.card := Nat.one_le_iff_ne_zero.mpr hc.2
    have hprod : (1 : ℝ) ≤ (qf.ngrams.card : ℝ) * (chunk.ngramSet.card : ℝ) := by
      have h1 : (1 : ℝ) ≤ (qf.ngrams.card : ℝ) := by exact_mod_cast hq
      have h2 : (1 : ℝ) ≤ (chunk.ngramSet.card : ℝ) := by exact_mod_cast hcc
      nlinarith
    have hs : 0 < Real.sqrt ((qf.ngrams.card : ℝ) * (chunk.ngramSet.card : ℝ)) :=
      Real.sqrt_pos.mpr (lt_of_lt_of_le one_pos hprod)
    rw [div_le_one hs]
    exact intersectCount_le_sqrt _ _

theorem queryCoverage_nonneg (chunk : Chunk) (qf : QueryFeatures) :
    0 ≤ queryCoverage chunk qf := by
  unfold queryCoverage
  split_ifs
  · exact le_refl 0
  · exact div_nonneg (Nat.cast_nonneg _) (Nat.cast_nonneg _)

theorem queryCoverage_le_one (chunk : Chunk) (qf : QueryFeatures) :
    queryCoverage chunk qf ≤ 1 := by
  unfold queryCoverage
  split_ifs with hq
  · norm_num
  · have hlen : 0 < qf.uniqueTokens.length := List.length_pos.mpr hq
    rw [div_le_one (by exact_mod_cast hlen)]
    exact_mod_cast List.countP_le_length _

/-- C10: the n-gram similarity and coverage signals lie in [0,1] — in
particular the set overlap is at most `sqrt(|querySet| * |chunkSet|)` — so
their weighted contributions are bounded by 2.2 and 1.2 respectively. -/
theorem claim10_theorem (Q C : Finset Str) (chunk : Chunk) (qf : QueryFeatures) :
    ((intersectCount Q C : ℝ) ≤ Real.sqrt ((Q.card : ℝ) * (C.card : ℝ))) ∧
    (0 ≤ ngramSimilarity chunk qf ∧ ngramSimilarity chunk qf ≤ 1) ∧
    (0 ≤ queryCoverage chunk qf ∧ queryCoverage chunk qf ≤ 1) ∧
    ngramSimilarity chunk qf * (11/5) ≤ 11/5 ∧
    queryCoverage chunk qf * (6/5) ≤ 6/5 := by
  refine ⟨intersectCount_le_sqrt Q C,
    ⟨ngramSimilarity_nonneg chunk qf, ngramSimilarity_le_one chunk qf⟩,
    ⟨queryCoverage_nonneg chunk qf, queryCoverage_le_one chunk qf⟩, ?_, ?_⟩
  · nlinarith [ngramSimilarity_nonneg chunk qf, ngramSimilarity_le_one chunk qf]
  · nlinarith [queryCoverage_nonneg chunk qf, queryCoverage_le_one chunk qf]

theorem bm25TokenScore_nonneg (cfg : RagConfig) (totalDocs : ℕ) (avgLen : ℚ)
    (df tf cnt : ℕ) (w : ℚ) (hk1 : 0 < cfg.k1) (hdf : df ≤ totalDocs) (hw : 0 ≤ w) :
    0 ≤ bm25TokenScore cfg totalDocs avgLen df tf cnt w := by
  unfold bm25TokenScore
  dsimp only
  split_ifs
  · exact le_refl 0
  · have hidf : 0 ≤ Real.log (1 + ((totalDocs : ℝ) - df + 1/2) / ((df : ℝ) + 1/2)) := by
      apply Real.log_nonneg
      have hnum : (0 : ℝ) ≤ (totalDocs : ℝ) - df + 1/2 := by
        have : (df : ℝ) ≤ (totalDocs : ℝ) := by exact_mod_cast hdf
        linarith
      have hden : (0 : ℝ) < (df : ℝ) + 1/2 := by positivity
      have := div_nonneg hnum hden.le
      linarith
    have hmax : (0 : ℝ) < max ((tf : ℝ) + (cfg.k1 : ℝ) *
        (1 - (cfg.b : ℝ) + (cfg.b : ℝ) * (cnt : ℝ) / (avgLen : ℝ))) (1/1000000000) :=
      lt_of_lt_of_le (by norm_num) (le_max_right _ _)
    apply div_nonneg _ hmax.le
    have hnum2 : (0 : ℝ) ≤ (tf : ℝ) * ((cfg.k1 : ℝ) + 1) := by
      apply mul_nonneg (Nat.cast_nonneg _)
      have : (0 : ℝ) < (cfg.k1 : ℝ) := by exact_mod_cast hk1
      linarith
    have hw' : (0 : ℝ) ≤ (w : ℝ) := by exact_mod_cast hw
    exact mul_nonneg (mul_nonneg hidf hnum2) hw'

theorem bm25TokenScore_mono (cfg : RagConfig) (totalDocs : ℕ) (avgLen : ℚ)
    (df tf tf' cnt : ℕ) (w : ℚ)
    (hk1 : 0 < cfg.k1) (hb0 : 0 ≤ cfg.b) (hb1 : cfg.b ≤ 1)
    (hdf : df ≤ totalDocs) (havg : 1 ≤ avgLen) (hw : 0 ≤ w) (htf : tf ≤ tf') :
    bm25TokenScore cfg totalDocs avgLen df tf cnt w ≤
      bm25TokenScore cfg totalDocs avgLen df tf' cnt w := by
  rcases Nat.eq_zero_or_pos tf with h0 | hpos
  · subst h0
    have h1 : bm25TokenScore cfg totalDocs avgLen df 0 cnt w = 0 := by
      simp [bm25TokenScore]
    rw [h1]
    exact bm25TokenScore_nonneg cfg totalDocs avgLen df tf' cnt w hk1 hdf hw
  · have hpos' : 0 < tf' := lt_of_lt_of_le hpos htf
    have htfne : tf ≠ 0 := Nat.pos_iff_ne_zero.mp hpos
    have htfne' : tf' ≠ 0 := Nat.pos_iff_ne_zero.mp hpos'
    unfold bm25TokenScore
    dsimp only
    rw [if_neg htfne, if_neg htfne']
    have hk1' : (0 : ℝ) < (cfg.k1 : ℝ) := by exact_mod_cast hk1
    have havg' : (1 : ℝ) ≤ (avgLen : ℝ) := by exact_mod_cast havg
    have hb0' : (0 : ℝ) ≤ (cfg.b : ℝ) := by exact_mod_cast hb0
    have hb1' : (cfg.b : ℝ) ≤ 1 := by exact_mod_cast hb1
    set K : ℝ := (cfg.k1 : ℝ) * (1 - (cfg.b : ℝ) + (cfg.b : ℝ) * (cnt : ℝ) / (avgLen : ℝ))
      with hKdef
    have hK : 0 ≤ K := by
      apply mul_nonneg hk1'.le
      have h1 : (0 : ℝ) ≤ 1 - (cfg.b : ℝ) := by linarith
      have h2 : (0 : ℝ) ≤ (cfg.b : ℝ) * (cnt : ℝ) / (avgLen : ℝ) := by
        apply div_nonneg (mul_nonneg hb0' (Nat.cast_nonneg _))
        linarith
      linarith
    have htp : (0 : ℝ) < (tf : ℝ) := by exact_mod_cast hpos
    have htp' : (0 : ℝ) < (tf' : ℝ) := by exact_mod_cast hpos'
    have hden : (0 : ℝ) < (tf : ℝ) + K := by linarith
    have hden' : (0 : ℝ) < (tf' : ℝ) + K := by linarith
    have heps : (1/1000000000 : ℝ) ≤ (tf : ℝ) + K := by
      have : (1 : ℝ) ≤ (tf : ℝ) := by exact_mod_cast hpos
      linarith
    have heps' : (1/1000000000 : ℝ) ≤ (tf' : ℝ) + K := by
      have : (1 : ℝ) ≤ (tf' : ℝ) := by exact_mod_cast hpos'
      linarith
    rw [max_eq_left heps, max_eq_left heps']
    have hidf : 0 ≤ Real.log (1 + ((totalDocs : ℝ) - df + 1/2) / ((df : ℝ) + 1/2)) := by
      apply Real.log_nonneg
      have hnum : (0 : ℝ) ≤ (totalDocs : ℝ) - df + 1/2 := by
        have : (df : ℝ) ≤ (totalDocs : ℝ) := by exact_mod_cast hdf
        linarith
      have hdenp : (0 : ℝ) < (df : ℝ) + 1/2 := by positivity
      have := div_nonneg hnum hdenp.le
      linarith
    have hw' : (0 : ℝ) ≤ (w : ℝ) := by exact_mod_cast hw
    have hA : 0 ≤ Real.log (1 + ((totalDocs : ℝ) - df + 1/2) / ((df : ℝ) + 1/2)) *
        ((cfg.k1 : ℝ) + 1) * (w : ℝ) := by
      apply mul_nonneg (mul_nonneg hidf (by linarith)) hw'
    have hfrac : (tf : ℝ) / ((tf : ℝ) + K) ≤ (tf' : ℝ) / ((tf' : ℝ) + K) := by
      rw [div_le_div_iff hden hden']
      have hc : (tf : ℝ) ≤ (tf' : ℝ) := by exact_mod_cast htf
      nlinarith [hK, hc]
    calc Real.log (1 + ((totalDocs : ℝ) - df + 1/2) / ((df : ℝ) + 1/2)) *
          ((tf : ℝ) * ((cfg.k1 : ℝ) + 1)) * (w : ℝ) / ((tf : ℝ) + K)
        = (Real.log (1 + ((totalDocs : ℝ) - df + 1/2) / ((df : ℝ) + 1/2)) *
            ((cfg.k1 : ℝ) + 1) * (w : ℝ)) * ((tf : ℝ) / ((tf : ℝ) + K)) := by ring
      _ ≤ (Real.log (1 + ((totalDocs : ℝ) - df + 1/2) / ((df : ℝ) + 1/2)) *
            ((cfg.k1 : ℝ) + 1) * (w : ℝ)) * ((tf' : ℝ) / ((tf' : ℝ) + K)) :=
          mul_le_mul_of_nonneg_left hfrac hA
      _ = Real.log (1 + ((totalDocs : ℝ) - df + 1/2) / ((df : ℝ) + 1/2)) *
            ((tf' : ℝ) * ((cfg.k1 : ℝ) + 1)) * (w : ℝ) / ((tf' : ℝ) + K) := by ring

/-- C3: the per-token BM25 term score is monotonically non-decreasing in the
term frequency (for fixed chunk token count, document frequency, snapshot
size, average length, k1 and b), and hence so is the BM25 sum when a single
token's frequency grows with everything else fixed. -/
theorem claim3_theorem (cfg : RagConfig) (st : Snapshot) (qf : QueryFeatures)
    (chunk chunk' : Chunk) (t0 : Str)
    (hk1 : 0 < cfg.k1) (hb0 : 0 ≤ cfg.b) (hb1 : cfg.b ≤ 1)
    (hdf : ∀ t, st.dfMap t ≤ st.chunks.length)
    (hcnt : chunk'.tokensCount = chunk.tokensCount)
    (hsame : ∀ t, t ≠ t0 → freqGet chunk'.tokenFreq t = freqGet chunk.tokenFreq t)
    (htf : freqGet chunk.tokenFreq t0 ≤ freqGet chunk'.tokenFreq t0) :
    (∀ (df tf tf' cnt : ℕ) (w : ℚ),
      df ≤ max 1 st.chunks.length → 0 ≤ w → tf ≤ tf' →
      bm25TokenScore cfg (max 1 st.chunks.length) (max 1 st.avgTokens) df tf cnt w ≤
        bm25TokenScore cfg (max 1 st.chunks.length) (max 1 st.avgTokens) df tf' cnt w) ∧
    bm25Score cfg chunk qf st ≤ bm25Score cfg chunk' qf st := by
  have havg : (1 : ℚ) ≤ max 1 st.avgTokens := le_max_left _ _
  constructor
  · intro df tf tf' cnt w hdf' hw htf'
    exact bm25TokenScore_mono cfg _ _ df tf tf' cnt w hk1 hb0 hb1 hdf' havg hw htf'
  · unfold bm25Score
    apply List.sum_le_sum
    intro t _
    rcases eq_or_ne t t0 with rfl | hne
    · rw [hcnt]
      exact bm25TokenScore_mono cfg _ _ _ _ _ _ _ hk1 hb0 hb1
        (le_trans (hdf t) (le_max_right _ _)) havg (tokenWeight_nonneg t) htf
    · rw [hsame t hne, hcnt]

/-- Witness for C3: doubling the frequency of the single query token does not
decrease the BM25 score at the default configuration. -/
theorem claim3_witness :
    bm25Score defaultConfig c3chunkLo c3qf c3snap ≤
      bm25Score defaultConfig c3chunkHi c3qf c3snap :=
  (claim3_theorem defaultConfig c3snap c3qf c3chunkLo c3chunkHi "ab".toList
    (by norm_num [defaultConfig]) (by norm_num [defaultConfig]) (by norm_num [defaultConfig])
    (fun t => Nat.zero_le _) rfl
    (by
      intro t ht
      simp only [c3chunkLo, c3chunkHi, freqGet]
      rw [if_neg (fun h => ht (h.symm)), if_neg (fun h => ht (h.symm))])
    (by decide)).2

theorem length_insertDesc (x : Scored) (l : List Scored) :
    (insertDesc x l).length = l.length + 1 := by
  induction l with
  | nil => rfl
  | cons y ys ih =>
    simp only [insertDesc]
    split_ifs <;> simp [ih]

theorem mem_insertDesc (y x : Scored) (l : List Scored) :
    y ∈ insertDesc x l ↔ y = x ∨ y ∈ l := by
  induction l with
  | nil => simp [insertDesc]
  | cons z zs ih =>
    simp only [insertDesc]
    by_cases h : x.score < z.score
    · rw [if_pos h]
      simp only [List.mem_cons, ih]
      tauto
    · rw [if_neg h]
      simp only [List.mem_cons]

theorem length_sortDesc (l : List Scored) : (sortDesc l).length = l.length := by
  induction l with
  | nil => rfl
  | cons x xs ih =>
    have h1 : sortDesc (x :: xs) = insertDesc x (sortDesc xs) := rfl
    rw [h1, length_insertDesc, ih, List.length_cons]

theorem mem_sortDesc (y : Scored) (l : List Scored) : y ∈ sortDesc l ↔ y ∈ l := by
  induction l with
  | nil => simp [sortDesc]
  | cons x xs ih =>
    simp only [sortDesc, List.foldr_cons] at *
    rw [mem_insertDesc, ih, List.mem_cons]

theorem sortDesc_of_sorted (l : List Scored)
    (h : List.Sorted (fun a b => b.score ≤ a.score) l) : sortDesc l = l := by
  induction l with
  | nil => rfl
  | cons x xs ih =>
    rw [List.sorted_cons] at h
    have h1 : sortDesc (x :: xs) = insertDesc x (sortDesc xs) := rfl
    rw [h1, ih h.2]
    cases xs with
    | nil => rfl
    | cons y ys =>
      have hy : y.score ≤ x.score := h.1 y (by simp)
      simp only [insertDesc]
      rw [if_neg (not_lt.mpr hy)]

theorem scanBest_stay (f : Scored → ℝ) :
    ∀ (l : List Scored) (i bi : ℕ) (bv : ℝ),
      (∀ y ∈ l, ¬ bv < f y) → scanBest f l i (bi, bv) = (bi, bv) := by
  intro l
  induction l with
  | nil => intro i bi bv _; rfl
  | cons y ys ih =>
    intro i bi bv h
    simp only [scanBest]
    rw [if_neg (h y (by simp))]
    exact ih (i + 1) bi bv (fun z hz => h z (by simp [hz]))

theorem scanBest_spec (f : Scored → ℝ) :
    ∀ (l : List Scored) (i bi : ℕ) (bv : ℝ),
      ((scanBest f l i (bi, bv)) = (bi, bv) ∧ ∀ y ∈ l, f y ≤ bv) ∨
      (∃ k, ∃ hk : k < l.length,
        (scanBest f l i (bi, bv)).1 = i + k ∧
        (scanBest f l i (bi, bv)).2 = f (l.get ⟨k, hk⟩) ∧
        bv < (scanBest f l i (bi, bv)).2 ∧
        (∀ m, (hm : m < l.length) → f (l.get ⟨m, hm⟩) ≤ (scanBest f l i (bi, bv)).2) ∧
        (∀ m, (hm : m < l.length) → m < k →
          f (l.get ⟨m, hm⟩) < (scanBest f l i (bi, bv)).2)) := by
  intro l
  induction l with
  | nil => intro i bi bv; left; exact ⟨rfl, by simp⟩
  | cons y ys ih =>
    intro i bi bv
    by_cases hlt : bv < f y
    · have hstep : scanBest f (y :: ys) i (bi, bv) = scanBest f ys (i + 1) (i, f y) := by
        simp [scanBest, hlt]
      rcases ih (i + 1) i (f y) with ⟨heq, hall⟩ | ⟨k, hk, h1, h2, h3, h4, h5⟩
      · right
        rw [hstep, heq]
        refine ⟨0, by simp, by simp, by simp, hlt, ?_, ?_⟩
        · intro m hm
          cases m with
          | zero => simp
          | succ m' =>
            have hmem : (y :: ys).get ⟨m' + 1, hm⟩ ∈ ys := by
              simpa using List.get_mem ys m' (by simpa using hm)
            exact hall _ hmem
        · intro m hm hm0
          exact absurd hm0 (Nat.not_lt_zero m)
      · right
        rw [hstep]
        have hyrv : f y < (scanBest f ys (i + 1) (i, f y)).2 := h3
        refine ⟨k + 1, by simpa using hk, by rw [h1]; omega, by rw [h2]; rfl,
          lt_trans hlt hyrv, ?_, ?_⟩
        · intro m hm
          cases m with
          | zero => exact le_of_lt hyrv
          | succ m' => exact h4 m' (by simpa using hm)
        · intro m hm hmk
          cases m with
          | zero => exact hyrv
          | succ m' => exact h5 m' (by simpa using hm) (by omega)
    · have hstep : scanBest f (y :: ys) i (bi, bv) = scanBest f ys (i + 1) (bi, bv) := by
        simp [scanBest, hlt]
      rcases ih (i + 1) bi bv with ⟨heq, hall⟩ | ⟨k, hk, h1, h2, h3, h4, h5⟩
      · left
        rw [hstep, heq]
        refine ⟨rfl, ?_⟩
        intro z hz
        rcases List.mem_cons.mp hz with rfl | hz'
        · exact not_lt.mp hlt
        · exact hall z hz'
      · right
        rw [hstep]
        refine ⟨k + 1, by simpa using hk, by rw [h1]; omega, by rw [h2]; rfl, h3, ?_, ?_⟩
        · intro m hm
          cases m with
          | zero => exact le_of_lt (lt_of_le_of_lt (not_lt.mp hlt) h3)
          | succ m' => exact h4 m' (by simpa using hm)
        · intro m hm hmk
          cases m with
          | zero => exact lt_of_le_of_lt (not_lt.mp hlt) h3
          | succ m' => exact h5 m' (by simpa using hm) (by omega)

theorem bestIndex_lt_length (f : Scored → ℝ) (x : Scored) (xs : List Scored) :
    bestIndex f (x :: xs) < (x :: xs).length := by
  have hb : bestIndex f (x :: xs) = (scanBest f xs 1 (0, f x)).1 := rfl
  rw [hb]
  rcases scanBest_spec f xs 1 0 (f x) with ⟨heq, _⟩ | ⟨k, hk, h1, _⟩
  · rw [heq]; simp
  · rw [h1]; simp only [List.length_cons]; omega

theorem bestIndex_max (f : Scored → ℝ) (x : Scored) (xs : List Scored) :
    ∀ m, (hm : m < (x :: xs).length) →
      f ((x :: xs).get ⟨m, hm⟩) ≤
        f ((x :: xs).getD (bestIndex f (x :: xs)) x) := by
  intro m hm
  have hb : bestIndex f (x :: xs) = (scanBest f xs 1 (0, f x)).1 := rfl
  rw [hb]
  rcases scanBest_spec f xs 1 0 (f x) with ⟨heq, hall⟩ | ⟨k, hk, h1, h2, h3, h4, _⟩
  · rw [heq]
    simp only [List.getD_cons_zero]
    cases m with
    | zero => simp
    | succ m' =>
      have hmem : (x :: xs).get ⟨m' + 1, hm⟩ ∈ xs := by
        simpa using List.get_mem xs m' (by simpa using hm)
      exact hall _ hmem
  · rw [h1]
    have hgd : (x :: xs).getD (1 + k) x = xs.get ⟨k, hk⟩ := by
      have h1k : 1 + k = k + 1 := by omega
      rw [h1k]
      simp [List.getD, List.getElem?_cons_succ, List.get?_eq_getElem?,
        List.getElem?_eq_getElem hk]
    rw [hgd, ← h2]
    cases m with
    | zero => exact le_of_lt h3
    | succ m' => exact h4 m' (by simpa using hm)

theorem bestIndex_first (f : Scored → ℝ) (x : Scored) (xs : List Scored) :
    ∀ m, (hm : m < (x :: xs).length) → m < bestIndex f (x :: xs) →
      f ((x :: xs).get ⟨m, hm⟩) <
        f ((x :: xs).getD (bestIndex f (x :: xs)) x) := by
  intro m hm hlt
  have hb : bestIndex f (x :: xs) = (scanBest f xs 1 (0, f x)).1 := rfl
  rw [hb] at hlt ⊢
  rcases scanBest_spec f xs 1 0 (f x) with ⟨heq, hall⟩ | ⟨k, hk, h1, h2, h3, h4, h5⟩
  · rw [heq] at hlt; omega
  · rw [h1] at hlt ⊢
    have hgd : (x :: xs).getD (1 + k) x = xs.get ⟨k, hk⟩ := by
      have h1k : 1 + k = k + 1 := by omega
      rw [h1k]
      simp [List.getD, List.getElem?_cons_succ, List.get?_eq_getElem?,
        List.getElem?_eq_getElem hk]
    rw [hgd, ← h2]
    cases m with
    | zero => exact h3
    | succ m' => exact h5 m' (by simpa using hm) (by omega)

theorem bestIndex_zero_of_max (f : Scored → ℝ) (x : Scored) (xs : List Scored)
    (h : ∀ y ∈ xs, f y ≤ f x) : bestIndex f (x :: xs) = 0 := by
  have hb : bestIndex f (x :: xs) = (scanBest f xs 1 (0, f x)).1 := rfl
  rw [hb, scanBest_stay f xs 1 0 (f x) (fun y hy => not_lt.mpr (h y hy))]

theorem mmrLoop_length_le (lam M : ℝ) :
    ∀ (k : ℕ) (sel rem : List Scored),
      (mmrLoop lam M k sel rem).length ≤ sel.length + k := by
  intro k
  induction k with
  | zero => intro sel rem; simp [mmrLoop]
  | succ k' ih =>
    intro sel rem
    cases rem with
    | nil => simp [mmrLoop]
    | cons r rs =>
      simp only [mmrLoop]
      have := ih (sel ++ [(r :: rs).getD (bestIndex (mmrValue lam M sel) (r :: rs)) r])
        ((r :: rs).eraseIdx (bestIndex (mmrValue lam M sel) (r :: rs)))
      simp only [List.length_append, List.length_cons, List.length_nil] at this
      omega

theorem getD_mem_or (l : List Scored) (i : ℕ) (d : Scored) :
    l.getD i d ∈ l ∨ l.getD i d = d := by
  rcases lt_or_ge i l.length with h | h
  · left
    rw [List.getD_eq_getElem l d h]
    exact List.getElem_mem h
  · right
    exact List.getD_eq_default l d h

theorem mmrLoop_subset (lam M : ℝ) :
    ∀ (k : ℕ) (sel rem : List Scored) (x : Scored),
      x ∈ mmrLoop lam M k sel rem → x ∈ sel ∨ x ∈ rem := by
  intro k
  induction k with
  | zero => intro sel rem x h; exact Or.inl h
  | succ k' ih =>
    intro sel rem x h
    cases rem with
    | nil => exact Or.inl h
    | cons r rs =>
      simp only [mmrLoop] at h
      rcases ih _ _ x h with h1 | h1
      · rcases List.mem_append.mp h1 with h2 | h2
        · exact Or.inl h2
        · right
          have hx : x = (r :: rs).getD (bestIndex (mmrValue lam M sel) (r :: rs)) r := by
            simpa using h2
          rcases getD_mem_or (r :: rs) (bestIndex (mmrValue lam M sel) (r :: rs)) r with h3 | h3
          · rw [hx]; exact h3
          · rw [hx, h3]; simp
      · exact Or.inr ((List.eraseIdx_sublist _ _).subset h1)

theorem mmrValue_one (M : ℝ) (sel : List Scored) (c : Scored) :
    mmrValue 1 M sel c = c.score / M := by
  simp [mmrValue]

theorem mmrLoop_lam_one (M : ℝ) (hM : 0 < M) :
    ∀ (k : ℕ) (sel rem : List Scored),
      List.Sorted (fun a b => b.score ≤ a.score) rem →
      mmrLoop 1 M k sel rem = sel ++ rem.take k := by
  intro k
  induction k with
  | zero => intro sel rem _; simp [mmrLoop]
  | succ k' ih =>
    intro sel rem hsorted
    cases rem with
    | nil => simp [mmrLoop]
    | cons r rs =>
      rw [List.sorted_cons] at hsorted
      have hbest : bestIndex (mmrValue 1 M sel) (r :: rs) = 0 := by
        apply bestIndex_zero_of_max
        intro y hy
        rw [mmrValue_one, mmrValue_one]
        exact (div_le_div_right hM).mpr (hsorted.1 y hy)
      simp only [mmrLoop, hbest, List.getD_cons_zero, List.eraseIdx_cons_zero]
      rw [ih (sel ++ [r]) rs hsorted.2]
      simp [List.take_succ_cons]

/-- C4: `applyMMR` returns at most `topK` items, every returned item comes
from the input pool, a pool of size ≤ `topK` is returned unchanged, and with
λ = 1 the output is the first `topK` elements of the relevance-sorted pool
(pure descending-relevance order). -/
theorem claim4_theorem (lam : ℝ) (topK : ℕ) (cands : List Scored) :
    (applyMMR lam topK cands).length ≤ topK ∧
    (∀ x ∈ applyMMR lam topK cands, x ∈ cands) ∧
    (cands.length ≤ topK → applyMMR lam topK cands = cands) ∧
    (lam = 1 → List.Sorted (fun a b => b.score ≤ a.score) cands →
      applyMMR lam topK cands = cands.take topK) := by
  refine ⟨?_, ?_, ?_, ?_⟩
  · unfold applyMMR
    split_ifs with h
    · exact h
    · rw [length_sortDesc]
      simpa using mmrLoop_length_le lam _ topK [] cands
  · intro x hx
    unfold applyMMR at hx
    split_ifs at hx with h
    · exact hx
    · rw [mem_sortDesc] at hx
      rcases mmrLoop_subset lam _ topK [] cands x hx with h1 | h1
      · exact absurd h1 (by simp)
      · exact h1
  · intro h
    unfold applyMMR
    rw [if_pos h]
  · intro hlam hsorted
    subst hlam
    unfold applyMMR
    split_ifs with h
    · rw [List.take_of_length_le h]
    · set M : ℝ := max ((cands.map (fun item => item.score)).foldr max 0) 1 with hM
      have hMpos : 0 < M := lt_of_lt_of_le one_pos (le_max_right _ _)
      show sortDesc (mmrLoop 1 M topK [] cands) = cands.take topK
      rw [mmrLoop_lam_one M hMpos topK [] cands hsorted]
      simp only [List.nil_append]
      exact sortDesc_of_sorted _ (hsorted.sublist (List.take_sublist _ _))

/-- Witness for C4: a relevance-sorted three-candidate pool with λ = 1 and
`topK = 2`. -/
theorem claim4_witness :
    (applyMMR 1 2 exPool).length ≤ 2 ∧ applyMMR 1 2 exPool = exPool.take 2 := by
  have hsorted : List.Sorted (fun a b : Scored => b.score ≤ a.score) exPool := by
    unfold exPool
    refine List.sorted_cons.mpr ⟨?_, List.sorted_cons.mpr ⟨?_, List.sorted_singleton _⟩⟩
    · intro b hb
      rcases List.mem_cons.mp hb with rfl | hb
      · show (2 : ℝ) ≤ 3
        norm_num
      · rcases List.mem_singleton.mp hb with rfl
        show (1 : ℝ) ≤ 3
        norm_num
    · intro b hb
      rcases List.mem_singleton.mp hb with rfl
      show (1 : ℝ) ≤ 2
      norm_num
  exact ⟨(claim4_theorem 1 2 exPool).1, (claim4_theorem 1 2 exPool).2.2.2 rfl hsorted⟩

/-- C2 (amended): at every greedy step of `applyMMR` over a non-empty
remaining pool, the next selected candidate is the remaining candidate with
the highest selection value `mmrValue = λ * (score / maxRelevance) - (1 - λ) *
redundancy` (ties broken by first occurrence in pool order), where
`maxRelevance = max(max pool score, 1)` and the redundancy is the maximum
(starting at 0) over already-selected chunks of `chunkSimilarity`, which
normalizes each set overlap by the larger set's size — not Jaccard — and
blends the two overlaps 0.55/0.45, clamped to [0,1]. -/
theorem claim2_amended (lam M : ℝ) (sel : List Scored) (r : Scored) (rs : List Scored) :
    bestIndex (mmrValue lam M sel) (r :: rs) < (r :: rs).length ∧
    (∀ m, (hm : m < (r :: rs).length) →
      mmrValue lam M sel ((r :: rs).get ⟨m, hm⟩) ≤
        mmrValue lam M sel ((r :: rs).getD (bestIndex (mmrValue lam M sel) (r :: rs)) r)) ∧
    (∀ m, (hm : m < (r :: rs).length) → m < bestIndex (mmrValue lam M sel) (r :: rs) →
      mmrValue lam M sel ((r :: rs).get ⟨m, hm⟩) <
        mmrValue lam M sel ((r :: rs).getD (bestIndex (mmrValue lam M sel) (r :: rs)) r)) ∧
    (∀ k, mmrLoop lam M (k + 1) sel (r :: rs) =
      mmrLoop lam M k
        (sel ++ [(r :: rs).getD (bestIndex (mmrValue lam M sel) (r :: rs)) r])
        ((r :: rs).eraseIdx (bestIndex (mmrValue lam M sel) (r :: rs)))) :=
  ⟨bestIndex_lt_length _ r rs, bestIndex_max _ r rs, bestIndex_first _ r rs,
    fun _ => rfl⟩

/-- Witness for C2 (amended) at a concrete one-candidate pool. -/
theorem claim2_witness :
    mmrValue 1 1 [] ((candA :: []).get ⟨0, by simp⟩) ≤
      mmrValue 1 1 [] ((candA :: []).getD (bestIndex (mmrValue 1 1 []) (candA :: [])) candA) :=
  (claim2_amended 1 1 [] candA []).2.1 0 (by simp)

/-- Counterexample for C2 as stated: with one selected chunk (token set
`{a, b}`) and a remaining candidate (token set `{b, c}`, identical singleton
n-gram sets), the code's selection value differs from the claimed formula
built on token-set/n-gram-set Jaccard similarity, because `chunkSimilarity`
divides the overlap by the larger set's size instead of the union's. -/
theorem claim2_counterexample :
    mmrValue (1/2) 2 [candA] candB ≠
      (1/2) * (candB.score / 2) -
        (1 - 1/2) * specChunkSimilarity candB.chunk candA.chunk := by
  have h1 : intersectCount candB.chunk.tokenSet candA.chunk.tokenSet = 1 := by decide
  have h2 : candB.chunk.tokenSet.card = 2 := by decide
  have h3 : candA.chunk.tokenSet.card = 2 := by decide
  have h4 : intersectCount candB.chunk.ngramSet candA.chunk.ngramSet = 1 := by decide
  have h5 : candB.chunk.ngramSet.card = 1 := by decide
  have h6 : candA.chunk.ngramSet.card = 1 := by decide
  have h7 : (candB.chunk.tokenSet ∪ candA.chunk.tokenSet).card = 3 := by decide
  have h8 : (candB.chunk.ngramSet ∪ candA.chunk.ngramSet).card = 1 := by decide
  have hsc : candB.score = 1 := rfl
  simp only [mmrValue, redundancy, List.foldl_cons, List.foldl_nil, chunkSimilarity,
    specChunkSimilarity, clamp01, h1, h2, h3, h4, h5, h6, h7, h8, hsc]
  norm_num [max_def, min_def]

theorem scoreChunk_eq_zero (cfg : RagConfig) (st : Snapshot) (qf : QueryFeatures)
    (c : Chunk)
    (htok : ∀ t ∈ qf.uniqueTokens, t ∉ c.tokenSet ∧ freqGet c.tokenFreq t = 0)
    (hng : intersectCount qf.ngrams c.ngramSet = 0)
    (hph : ∀ p ∈ qf.phrases, strHasSub c.lowerText p = false)
    (hphx : strHasSub c.lowerText qf.text = false) :
    scoreChunk cfg c qf st = 0 := by
  have hbm : bm25Score cfg c qf st = 0 := by
    unfold bm25Score
    dsimp only
    apply List.sum_eq_zero
    intro x hx
    rw [List.mem_map] at hx
    obtain ⟨t, ht, rfl⟩ := hx
    rw [(htok t ht).2]
    simp [bm25TokenScore]
  have hphr : phraseScore c qf = 0 := by
    unfold phraseScore
    have hfil : qf.phrases.filter
        (fun p => decide (3 ≤ p.length ∧ strHasSub c.lowerText p = true)) = [] := by
      rw [List.filter_eq_nil]
      intro p hp
      simp only [decide_eq_true_eq, not_and]
      intro _
      rw [hph p hp]
      simp
    rw [hfil]
    simp [hphx]
  have hngr : ngramSimilarity c qf = 0 := by
    simp [ngramSimilarity, hng]
  have hcov : queryCoverage c qf = 0 := by
    unfold queryCoverage
    split_ifs with h1
    · rfl
    · have hcnt : qf.uniqueTokens.countP (fun t => decide (t ∈ c.tokenSet)) = 0 := by
        rw [List.countP_eq_zero]
        intro t ht
        simp only [decide_eq_true_eq]
        exact (htok t ht).1
      rw [hcnt]
      simp
  unfold scoreChunk
  rw [hbm, hphr, hngr, hcov]
  ring

/-- C1 (amended): a query sharing no token (equivalently, zero term
frequency) with any chunk, no character n-gram with any chunk, and none of
whose phrases — nor its full normalized text — occurs as a substring of any
chunk's lower-cased text, retrieves empty matches, empty citations and a null
context message, provided `minScore > 0`. -/
theorem claim1_amended (cfg : RagConfig) (st : Snapshot) (q : Str)
    (hmin : 0 < cfg.minScore)
    (htok : ∀ c ∈ st.chunks,
      ∀ t ∈ (buildQueryFeatures cfg.ngramSize (jsTrim q)).uniqueTokens,
        t ∉ c.tokenSet ∧ freqGet c.tokenFreq t = 0)
    (hng : ∀ c ∈ st.chunks,
      intersectCount (buildQueryFeatures cfg.ngramSize (jsTrim q)).ngrams c.ngramSet = 0)
    (hph : ∀ c ∈ st.chunks,
      (∀ p ∈ (buildQueryFeatures cfg.ngramSize (jsTrim q)).phrases,
        strHasSub c.lowerText p = false) ∧
      strHasSub c.lowerText (buildQueryFeatures cfg.ngramSize (jsTrim q)).text = false) :
    retrieveKnowledge cfg st q = emptyResult := by
  simp only [retrieveKnowledge]
  by_cases hg1 : cfg.enabled = false ∨ jsTrim q = []
  · rw [if_pos hg1]
  · rw [if_neg hg1]
    by_cases hg2 : st.chunks = []
    · rw [if_pos hg2]
    · rw [if_neg hg2]
      by_cases hg3 :
          (buildQueryFeatures cfg.ngramSize (jsTrim q)).uniqueTokens = []
      · rw [if_pos hg3]
      · rw [if_neg hg3]
        have hfil : (st.chunks.map
            (fun c => mkScored cfg c (buildQueryFeatures cfg.ngramSize (jsTrim q)) st)).filter
              (fun item => decide ((cfg.minScore : ℝ) ≤ item.score)) = [] := by
          rw [List.filter_eq_nil]
          intro s hs
          rw [List.mem_map] at hs
          obtain ⟨c, hc, rfl⟩ := hs
          have hz : scoreChunk cfg c (buildQueryFeatures cfg.ngramSize (jsTrim q)) st = 0 :=
            scoreChunk_eq_zero cfg st _ c (htok c hc) (hng c hc) (hph c hc).1 (hph c hc).2
          simp only [mkScored, decide_eq_true_eq, hz, not_le]
          exact_mod_cast hmin
        rw [hfil]
        have hsd : sortDesc ([] : List Scored) = [] := rfl
        rw [hsd, List.take_nil]
        have hmm : applyMMR (cfg.mmrLambda : ℝ) cfg.topK [] = [] := by
          unfold applyMMR
          rw [if_pos (by simp)]
        rw [hmm]
        rfl

/-- Witness for C1 (amended): the query `zzz` against the `hello world`
snapshot shares no token, n-gram or phrase with the chunk. -/
theorem claim1_witness :
    retrieveKnowledge defaultConfig exSnapHello "zzz".toList = emptyResult :=
  claim1_amended defaultConfig exSnapHello "zzz".toList
    (by norm_num [defaultConfig]) (by decide) (by decide) (by decide)

theorem retrieve_single (cfg : RagConfig) (st : Snapshot) (q : Str) (c : Chunk)
    (h1 : cfg.enabled = true) (h2 : jsTrim q ≠ []) (hch : st.chunks = [c])
    (h4 : (buildQueryFeatures cfg.ngramSize (jsTrim q)).uniqueTokens ≠ [])
    (h5 : (cfg.minScore : ℝ) ≤
      scoreChunk cfg c (buildQueryFeatures cfg.ngramSize (jsTrim q)) st)
    (h6 : 1 ≤ cfg.topK) :
    (retrieveKnowledge cfg st q).matches' ≠ [] := by
  simp only [retrieveKnowledge]
  rw [if_neg (by rw [h1]; simp [h2]), if_neg (by rw [hch]; simp), if_neg h4]
  rw [hch]
  have hfil : ([c].map
      (fun c => mkScored cfg c (buildQueryFeatures cfg.ngramSize (jsTrim q)) st)).filter
        (fun item => decide ((cfg.minScore : ℝ) ≤ item.score)) =
      [mkScored cfg c (buildQueryFeatures cfg.ngramSize (jsTrim q)) st] := by
    simp only [List.map_cons, List.map_nil, List.filter_cons, List.filter_nil]
    rw [if_pos]
    simp only [mkScored, decide_eq_true_eq]
    exact h5
  rw [hfil]
  have hsd : sortDesc [mkScored cfg c (buildQueryFeatures cfg.ngramSize (jsTrim q)) st] =
      [mkScored cfg c (buildQueryFeatures cfg.ngramSize (jsTrim q)) st] := rfl
  rw [hsd]
  have htake : [mkScored cfg c (buildQueryFeatures cfg.ngramSize (jsTrim q)) st].take
      (min [c].length (max cfg.topK (cfg.topK * cfg.candidateMultiplier))) =
      [mkScored cfg c (buildQueryFeatures cfg.ngramSize (jsTrim q)) st] := by
    apply List.take_of_length_le
    simp only [List.length_cons, List.length_nil]
    exact le_min (by omega) (le_trans h6 (le_max_left _ _))
  rw [htake]
  have hmm : applyMMR (cfg.mmrLambda : ℝ) cfg.topK
      [mkScored cfg c (buildQueryFeatures cfg.ngramSize (jsTrim q)) st] =
      [mkScored cfg c (buildQueryFeatures cfg.ngramSize (jsTrim q)) st] := by
    unfold applyMMR
    rw [if_pos (by simpa using h6)]
  rw [hmm]
  simp

/-- Counterexample for C1 as stated: the query `abcdefgh` shares no token
with the snapshot's only chunk (`xabcdefghx` tokenizes to the single token
`xabcdefghx`), yet the phrase and full-query substring bonuses alone score
3.5 ≥ minScore = 0.8, so `retrieveKnowledge` returns a non-empty match list. -/
theorem claim1_counterexample :
    (∀ c ∈ exSnapC1.chunks,
      ∀ t ∈ (buildQueryFeatures defaultConfig.ngramSize
          (jsTrim "abcdefgh".toList)).uniqueTokens, t ∉ c.tokenSet) ∧
    (retrieveKnowledge defaultConfig exSnapC1 "abcdefgh".toList).matches' ≠ [] := by
  constructor
  · decide
  · apply retrieve_single defaultConfig exSnapC1 "abcdefgh".toList exChunkC1 rfl
      (by decide) (by decide) (by decide) ?_ (by decide)
    have hbm : bm25Score defaultConfig exChunkC1
        (buildQueryFeatures defaultConfig.ngramSize (jsTrim "abcdefgh".toList))
        exSnapC1 = 0 := by
      unfold bm25Score
      dsimp only
      apply List.sum_eq_zero
      intro x hx
      rw [List.mem_map] at hx
      obtain ⟨t, ht, rfl⟩ := hx
      have hu : (buildQueryFeatures defaultConfig.ngramSize
          (jsTrim "abcdefgh".toList)).uniqueTokens = ["abcdefgh".toList] := by decide
      rw [hu, List.mem_singleton] at ht
      subst ht
      have htf : freqGet exChunkC1.tokenFreq "abcdefgh".toList = 0 := by decide
      rw [htf]
      simp [bm25TokenScore]
    have hphr : phraseScore exChunkC1
        (buildQueryFeatures defaultConfig.ngramSize (jsTrim "abcdefgh".toList)) =
        (7/2 : ℝ) := by
      unfold phraseScore
      have hfil : (buildQueryFeatures defaultConfig.ngramSize
            (jsTrim "abcdefgh".toList)).phrases.filter
          (fun p => decide (3 ≤ p.length ∧
            strHasSub exChunkC1.lowerText p = true)) = ["abcdefgh".toList] := by
        decide
      rw [hfil]
      have hlen : (8 : ℕ) ≤ (buildQueryFeatures defaultConfig.ngramSize
            (jsTrim "abcdefgh".toList)).text.length ∧
          strHasSub exChunkC1.lowerText (buildQueryFeatures defaultConfig.ngramSize
            (jsTrim "abcdefgh".toList)).text = true := by decide
      rw [if_pos hlen]
      have hplen : (8 : ℕ) ≤ ("abcdefgh".toList : Str).length := by decide
      simp only [List.map_cons, List.map_nil, List.sum_cons, List.sum_nil, if_pos hplen]
      norm_num
    have hng := ngramSimilarity_nonneg exChunkC1
      (buildQueryFeatures defaultConfig.ngramSize (jsTrim "abcdefgh".toList))
    have hcov := queryCoverage_nonneg exChunkC1
      (buildQueryFeatures defaultConfig.ngramSize (jsTrim "abcdefgh".toList))
    unfold scoreChunk
    rw [hbm, hphr]
    have hms : ((defaultConfig.minScore : ℚ) : ℝ) = 4/5 := by
      norm_num [defaultConfig]
    rw [hms]
    nlinarith [hng, hcov]

theorem hasNN_tail {c : Char} {rest : Str} (h : hasNN (c :: rest) = false) :
    hasNN rest = false := by
  cases rest with
  | nil => rfl
  | cons c2 r =>
    simp only [hasNN, Bool.or_eq_false_iff] at h
    exact h.2

theorem hasNN_head {c : Char} {c2 : Char} {rest : Str}
    (h : hasNN (c :: c2 :: rest) = false) : ¬(c = '\n' ∧ c2 = '\n') := by
  simp only [hasNN, Bool.or_eq_false_iff, Bool.and_eq_false_iff] at h
  rintro ⟨rfl, rfl⟩
  rcases h.1 with h1 | h1 <;> simp at h1

theorem dropWhile_isWs_noop {l : Str} (hw : ∀ c, l.head? = some c → isWs c = false) :
    l.dropWhile isWs = l := by
  cases l with
  | nil => rfl
  | cons c t =>
    rw [List.dropWhile_cons, if_neg]
    rw [hw c rfl]
    simp

theorem jsTrim_noop {l : Str} (hne : l ≠ [])
    (hw : ∀ c, l.head? = some c → isWs c = false)
    (hl : ∀ c, l.getLast? = some c → isWs c = false) : jsTrim l = l := by
  unfold jsTrim
  rw [dropWhile_isWs_noop hw]
  have hrev : l.reverse.dropWhile isWs = l.reverse := by
    apply dropWhile_isWs_noop
    intro c hc
    rw [List.head?_reverse] at hc
    exact hl c hc
  rw [hrev, List.reverse_reverse]

theorem jsTrim_nn {p : Str} (hne : p ≠ [])
    (hw : ∀ c, p.head? = some c → isWs c = false)
    (hl : ∀ c, p.getLast? = some c → isWs c = false) :
    jsTrim ('\n' :: '\n' :: p) = p := by
  unfold jsTrim
  have h1 : ('\n' :: '\n' :: p).dropWhile isWs = p.dropWhile isWs := by
    rw [List.dropWhile_cons, if_pos (by simp [isWs]), List.dropWhile_cons,
      if_pos (by simp [isWs])]
  rw [h1, dropWhile_isWs_noop hw]
  have hrev : p.reverse.dropWhile isWs = p.reverse := by
    apply dropWhile_isWs_noop
    intro c hc
    rw [List.head?_reverse] at hc
    exact hl c hc
  rw [hrev, List.reverse_reverse]

theorem replCRLF_noop : ∀ l : Str, '\r' ∉ l → replCRLF l = l := by
  intro l
  induction l with
  | nil => intro _; rfl
  | cons c rest ih =>
    intro h
    have hc : c ≠ '\r' := fun hcc => h (by rw [hcc]; simp)
    have hrest : '\r' ∉ rest := fun hr => h (List.mem_cons_of_mem _ hr)
    rw [replCRLF.eq_def]
    split
    · rename_i heq
      exact absurd heq (by simp)
    · rename_i heq
      rw [List.cons.injEq] at heq
      exact absurd heq.1 hc
    · rename_i heq
      rw [List.cons.injEq] at heq
      obtain ⟨hc2, hr2⟩ := heq
      subst hc2
      subst hr2
      rw [ih hrest]

theorem splitParasAux_noNN :
    ∀ p : Str,
      (∀ cur, hasNN p = false →
        splitParasAux false false cur p = [cur.reverse ++ p]) ∧
      (∀ cur, hasNN ('\n' :: p) = false →
        splitParasAux false true cur p = [cur.reverse ++ '\n' :: p]) := by
  intro p
  induction p with
  | nil =>
    constructor
    · intro cur _
      simp [splitParasAux]
    · intro cur _
      simp [splitParasAux]
  | cons c rest ih =>
    constructor
    · intro cur h
      by_cases hc : c = '\n'
      · subst hc
        have hstep : splitParasAux false false cur ('\n' :: rest) =
            splitParasAux false true cur rest := by
          simp [splitParasAux]
        rw [hstep]
        exact ih.2 cur h
      · have hstep : splitParasAux false false cur (c :: rest) =
            splitParasAux false false (c :: cur) rest := by
          simp [splitParasAux, hc]
        rw [hstep, ih.1 (c :: cur) (hasNN_tail h)]
        simp
    · intro cur h
      have hc : c ≠ '\n' := by
        intro hcc
        exact hasNN_head h ⟨rfl, hcc⟩
      have hstep : splitParasAux false true cur (c :: rest) =
          splitParasAux false false (c :: '\n' :: cur) rest := by
        simp [splitParasAux, hc]
      rw [hstep, ih.1 (c :: '\n' :: cur) (hasNN_tail (hasNN_tail h))]
      simp

theorem splitParasAux_skip (r : Str) (hr : ∀ c, r.head? = some c → c ≠ '\n') :
    splitParasAux true false [] r = splitParas r := by
  cases r with
  | nil => rfl
  | cons c rest =>
    have hc : c ≠ '\n' := hr c rfl
    have h1 : splitParasAux true false [] (c :: rest) =
        splitParasAux false false [c] rest := by
      simp [splitParasAux, hc]
    have h2 : splitParas (c :: rest) = splitParasAux false false [c] rest := by
      simp [splitParas, splitParasAux, hc]
    rw [h1, h2]

theorem getLast?_tail_ne {d : Char} {c : Char} {rest : Str}
    (h : (c :: rest).getLast? ≠ some d) : rest.getLast? ≠ some d := by
  cases rest with
  | nil => simp
  | cons e es =>
    rw [List.getLast?_cons_cons] at h
    exact h

theorem splitParasAux_sep (r : Str) (hr : ∀ c, r.head? = some c → c ≠ '\n') :
    ∀ p : Str,
      (∀ cur, hasNN p = false → p.getLast? ≠ some '\n' →
        splitParasAux false false cur (p ++ '\n' :: '\n' :: r) =
          (cur.reverse ++ p) :: splitParas r) ∧
      (∀ cur, hasNN ('\n' :: p) = false → ('\n' :: p).getLast? ≠ some '\n' →
        splitParasAux false true cur (p ++ '\n' :: '\n' :: r) =
          (cur.reverse ++ '\n' :: p) :: splitParas r) := by
  intro p
  induction p with
  | nil =>
    constructor
    · intro cur _ _
      have h1 : splitParasAux false false cur ('\n' :: '\n' :: r) =
          splitParasAux false true cur ('\n' :: r) := by
        simp [splitParasAux]
      have h2 : splitParasAux false true cur ('\n' :: r) =
          cur.reverse :: splitParasAux true false [] r := by
        simp [splitParasAux]
      rw [List.nil_append, h1, h2, splitParasAux_skip r hr]
      simp
    · intro cur _ hlast
      exfalso
      exact hlast (by simp)
  | cons c rest ih =>
    constructor
    · intro cur h hlast
      by_cases hc : c = '\n'
      · subst hc
        have hstep : splitParasAux false false cur (('\n' :: rest) ++ '\n' :: '\n' :: r) =
            splitParasAux false true cur (rest ++ '\n' :: '\n' :: r) := by
          simp [splitParasAux]
        rw [hstep, ih.2 cur h hlast]
      · have hstep : splitParasAux false false cur ((c :: rest) ++ '\n' :: '\n' :: r) =
            splitParasAux false false (c :: cur) (rest ++ '\n' :: '\n' :: r) := by
          simp [splitParasAux, hc]
        rw [hstep, (ih).1 (c :: cur) (hasNN_tail h) (getLast?_tail_ne hlast)]
        simp
    · intro cur h hlast
      have hc : c ≠ '\n' := by
        intro hcc
        exact hasNN_head h ⟨rfl, hcc⟩
      have hstep : splitParasAux false true cur ((c :: rest) ++ '\n' :: '\n' :: r) =
          splitParasAux false false (c :: '\n' :: cur) (rest ++ '\n' :: '\n' :: r) := by
        simp [splitParasAux, hc]
      rw [hstep, (ih).1 (c :: '\n' :: cur) (hasNN_tail (hasNN_tail h))
        (getLast?_tail_ne (getLast?_tail_ne hlast))]
      simp

theorem splitParas_joinParas : ∀ paras : List Str,
    (∀ p ∈ paras, p ≠ [] ∧ (∀ c, p.head? = some c → isWs c = false) ∧
      (∀ c, p.getLast? = some c → isWs c = false) ∧ hasNN p = false) →
    paras ≠ [] → splitParas (joinParas paras) = paras := by
  intro paras
  induction paras with
  | nil => intro _ h; exact absurd rfl h
  | cons p ps ih =>
    intro hp _
    cases ps with
    | nil =>
      have h := hp p (by simp)
      show splitParasAux false false [] p = [p]
      rw [(splitParasAux_noNN p).1 [] h.2.2.2]
      simp
    | cons q qs =>
      have hpp := hp p (by simp)
      have hq := hp q (by simp)
      have hhead : ∀ c, (joinParas (q :: qs)).head? = some c → c ≠ '\n' := by
        intro c hc hcc
        have heq : (joinParas (q :: qs)).head? = q.head? := by
          cases qs with
          | nil => rfl
          | cons _ _ =>
            show (q ++ _).head? = q.head?
            cases q with
            | nil => exact absurd rfl hq.1
            | cons _ _ => rfl
        rw [heq] at hc
        have hw := hq.2.1 c hc
        rw [hcc] at hw
        exact absurd hw (by decide)
      have hlast : p.getLast? ≠ some '\n' := by
        intro hl
        have hw := hpp.2.2.1 '\n' hl
        exact absurd hw (by decide)
      show splitParasAux false false []
        (p ++ '\n' :: '\n' :: joinParas (q :: qs)) = p :: q :: qs
      rw [(splitParasAux_sep (joinParas (q :: qs)) hhead p).1 [] hpp.2.2.2 hlast]
      rw [List.reverse_nil, List.nil_append]
      congr 1
      exact ih (fun x hx => hp x (by simp [hx])) (by simp)

theorem map_jsTrim_self (l : List Str) (h : ∀ p ∈ l, jsTrim p = p) :
    l.map jsTrim = l := by
  induction l with
  | nil => rfl
  | cons p ps ih =>
    rw [List.map_cons, h p (by simp), ih (fun x hx => h x (by simp [hx]))]

theorem joinParas_flatten : ∀ (ps : List Str) (p : Str),
    joinParas (p :: ps) = p ++ (ps.map (fun x => '\n' :: '\n' :: x)).flatten := by
  intro ps
  induction ps with
  | nil => intro p; simp [joinParas]
  | cons q qs ih =>
    intro p
    show p ++ '\n' :: '\n' :: joinParas (q :: qs) = _
    rw [ih q]
    simp

theorem joinParas_length (ps : List Str) (p : Str) :
    (joinParas (p :: ps)).length = p.length + ((ps.map (fun x => x.length + 2)).sum) := by
  induction ps generalizing p with
  | nil => simp [joinParas]
  | cons q qs ih =>
    show (p ++ '\n' :: '\n' :: joinParas (q :: qs)).length = _
    rw [List.length_append]
    simp only [List.length_cons, ih q, List.map_cons, List.sum_cons]
    omega

theorem joinParas_noCR : ∀ paras : List Str,
    (∀ p ∈ paras, '\r' ∉ p) → '\r' ∉ joinParas paras := by
  intro paras
  induction paras with
  | nil => intro _; simp [joinParas]
  | cons p ps ih =>
    intro h
    cases ps with
    | nil => exact h p (by simp)
    | cons q qs =>
      show '\r' ∉ p ++ '\n' :: '\n' :: joinParas (q :: qs)
      intro hmem
      rcases List.mem_append.mp hmem with h1 | h1
      · exact h p (by simp) h1
      · rcases List.mem_cons.mp h1 with h2 | h2
        · exact absurd h2 (by decide)
        · rcases List.mem_cons.mp h2 with h3 | h3
          · exact absurd h3 (by decide)
          · exact ih (fun x hx => h x (by simp [hx])) h3

theorem splitLoop_accum (maxChars : ℕ) :
    ∀ (ps : List Str) (cur : Str),
      cur ≠ [] →
      (∀ c, cur.head? = some c → isWs c = false) →
      (∀ c, cur.getLast? = some c → isWs c = false) →
      (∀ p ∈ ps, p ≠ [] ∧ (∀ c, p.head? = some c → isWs c = false) ∧
        (∀ c, p.getLast? = some c → isWs c = false)) →
      cur.length + ((ps.map (fun x => x.length + 2)).sum) ≤ maxChars →
      splitLoop maxChars ps cur [] =
        [cur ++ (ps.map (fun x => '\n' :: '\n' :: x)).flatten] := by
  intro ps
  induction ps with
  | nil =>
    intro cur hne hw hl _ _
    show [] ++ pushList cur = _
    rw [List.nil_append]
    unfold pushList
    rw [jsTrim_noop hne hw hl, if_neg hne]
    simp
  | cons p rest ih =>
    intro cur hne hw hl hp hbudget
    have hpp := hp p (by simp)
    simp only [List.map_cons, List.sum_cons] at hbudget
    have hc1 : 1 ≤ cur.length := by
      cases cur with
      | nil => exact absurd rfl hne
      | cons _ _ => simp
    have hb1 : ¬ (maxChars < p.length) := by omega
    have hcurp_ne : (cur ++ '\n' :: '\n' :: p) ≠ [] := by
      cases cur with
      | nil => exact absurd rfl hne
      | cons _ _ => simp
    have hhead : ∀ c, (cur ++ '\n' :: '\n' :: p).head? = some c → isWs c = false := by
      intro c hc
      cases cur with
      | nil => exact absurd rfl hne
      | cons d ds =>
        simp only [List.cons_append, List.head?_cons, Option.some.injEq] at hc
        subst hc
        exact hw _ rfl
    have hlastp : ∀ c, (cur ++ '\n' :: '\n' :: p).getLast? = some c → isWs c = false := by
      intro c hc
      have hgl : (cur ++ '\n' :: '\n' :: p).getLast? = p.getLast? := by
        cases p with
        | nil => exact absurd rfl hpp.1
        | cons e es =>
          simp only [List.getLast?_append, List.getLast?_cons_cons]
          cases h : List.getLast? (e :: es : Str) with
          | none => simp at h
          | some d => rfl
      rw [hgl] at hc
      exact hpp.2.2 c hc
    have htrim : jsTrim (cur ++ '\n' :: '\n' :: p) = cur ++ '\n' :: '\n' :: p :=
      jsTrim_noop hcurp_ne hhead hlastp
    have hlen2 : (cur ++ '\n' :: '\n' :: p).length = cur.length + p.length + 2 := by
      simp only [List.length_append, List.length_cons]
      omega
    have hb2 : (jsTrim (cur ++ '\n' :: '\n' :: p)).length ≤ maxChars := by
      rw [htrim, hlen2]
      omega
    have hstep : splitLoop maxChars (p :: rest) cur [] =
        splitLoop maxChars rest (jsTrim (cur ++ '\n' :: '\n' :: p)) [] := by
      show (if maxChars < p.length then _ else _) = _
      rw [if_neg hb1, if_pos hb2]
    rw [hstep, htrim,
      ih (cur ++ '\n' :: '\n' :: p) hcurp_ne hhead hlastp
        (fun x hx => hp x (by simp [hx]))
        (by rw [hlen2]; omega)]
    simp

/-- C6 (amended): `splitIntoChunks` is a pure (hence deterministic) function,
and any already-chunk-shaped text re-splits to itself unchanged: a text that
is the blank-line join of non-empty whitespace-trimmed paragraphs without
blank-line runs or carriage returns, and that fits in `maxChars`, is returned
as the single chunk `[text]`. (Texts outside this normal form can be
rewritten — see the counterexample — so the claim's unconditional form is
false.) -/
theorem claim6_amended (maxChars : ℕ) (paras : List Str)
    (hne : paras ≠ [])
    (hp : ∀ p ∈ paras, p ≠ [] ∧ (∀ c, p.head? = some c → isWs c = false) ∧
      (∀ c, p.getLast? = some c → isWs c = false) ∧ hasNN p = false ∧ '\r' ∉ p)
    (hlen : (joinParas paras).length ≤ maxChars) :
    splitIntoChunks (joinParas paras) maxChars = [joinParas paras] := by
  unfold splitIntoChunks
  have hnoCR : '\r' ∉ joinParas paras :=
    joinParas_noCR paras (fun p hp' => (hp p hp').2.2.2.2)
  rw [replCRLF_noop _ hnoCR,
    splitParas_joinParas paras
      (fun p hp' => ⟨(hp p hp').1, (hp p hp').2.1, (hp p hp').2.2.1, (hp p hp').2.2.2.1⟩)
      hne,
    map_jsTrim_self paras
      (fun p hp' => jsTrim_noop (hp p hp').1 (hp p hp').2.1 (hp p hp').2.2.1)]
  have hfil : paras.filter (fun p => decide (p ≠ [])) = paras := by
    rw [List.filter_eq_self]
    intro p hp'
    simp [(hp p hp').1]
  rw [hfil]
  cases paras with
  | nil => exact absurd rfl hne
  | cons p ps =>
    have hpp := hp p (by simp)
    have hjl := joinParas_length ps p
    have hb1 : ¬ (maxChars < p.length) := by omega
    have htrimnn : jsTrim (([] : Str) ++ '\n' :: '\n' :: p) = p := by
      rw [List.nil_append]
      exact jsTrim_nn hpp.1 hpp.2.1 hpp.2.2.1
    have hb2 : (jsTrim (([] : Str) ++ '\n' :: '\n' :: p)).length ≤ maxChars := by
      rw [htrimnn]
      omega
    have hstep : splitLoop maxChars (p :: ps) [] [] =
        splitLoop maxChars ps (jsTrim (([] : Str) ++ '\n' :: '\n' :: p)) [] := by
      show (if maxChars < p.length then _ else _) = _
      rw [if_neg hb1, if_pos hb2]
    rw [hstep, htrimnn,
      splitLoop_accum maxChars ps p hpp.1 hpp.2.1 hpp.2.2.1
        (fun x hx =>
          ⟨(hp x (by simp [hx])).1, (hp x (by simp [hx])).2.1,
            (hp x (by simp [hx])).2.2.1⟩)
        (by omega),
      ← joinParas_flatten]

/-- Witness for C6 (amended): a two-paragraph normal-form text re-splits to
itself at `maxChars = 200`. -/
theorem claim6_witness :
    splitIntoChunks (joinParas ["para one".toList, "para two".toList]) 200 =
      [joinParas ["para one".toList, "para two".toList]] :=
  claim6_amended 200 ["para one".toList, "para two".toList]
    (by decide) (by decide) (by decide)

/-- Counterexample for C6 as stated: the two-character text `" a"` is no
longer than `maxChars = 200`, yet `splitIntoChunks` returns `["a"]` (the
paragraph is trimmed), not the text unchanged as a single chunk. -/
theorem claim6_counterexample :
    splitIntoChunks " a".toList 200 ≠ [" a".toList] := by
  decide

end Rag
